import Mathlib

/-!
Shallow embedding of the judgement state store and event-sourced notification
pipeline of `polkadot-registrar-challenger` (`src/database.rs`, with the
reader of `src/verifier.rs`).

MongoDB storage is modelled as explicit state: the `identities` collection is
a list of `JudgementState` documents in insertion (natural) order, the
`event_log` collection a list of `Event` records in insertion order, and the
in-memory `event_counter` of the `Database` struct an `Int` (i64 overflow is
irrelevant to the claims: the counter only grows by small increments from a
timestamp seed).  `find` returns the matching documents in natural order,
`find_one` the first matching document, and `update_one` updates the first
matching document; the positional `$` operator updates the first array element
matching the field conditions of the query (conditions on the same field are
read `$elemMatch`-style, i.e. one element must satisfy all of them).

The data model of `primitives.rs` is not part of the sources; its pieces are
modelled from the specification and marked `Modelled from the spec:` below.
-/

/-- Stable identifier of one on-chain identity (spec §3 `IdentityContext`):
chain namespace plus address. -/
structure IdentityContext where
  chain : String
  address : String
deriving DecidableEq

/-- Modelled from the spec: `primitives.rs` is absent from the sources; §3
describes a field's expected challenge as a challenge payload together with an
`is_verified` flag. -/
structure ExpectedChallenge where
  value : String
  is_verified : Bool
deriving DecidableEq

/-- One claimed external account inside an identity (spec §3 `IdentityField`):
the claimed `value`, its expected challenge, the reserved optional second
challenge, and the failed-attempts counter incremented by the failure path of
`verify_message` (database.rs, the `$inc` on `fields.$.failed_attempts`). -/
structure IdentityField where
  value : String
  expected_challenge : ExpectedChallenge
  second_expected_challenge : Option ExpectedChallenge
  failed_attempts : Nat
deriving DecidableEq

/-- Aggregate judgement state of one identity (spec §3 `JudgementState`). -/
structure JudgementState where
  context : IdentityContext
  is_fully_verified : Bool
  fields : List IdentityField
deriving DecidableEq

/-- Modelled from the spec: §3 `ExternalMessage` carries an `origin` (the
external account the message claims to come from) and a challenge-response
payload, modelled as a list of payload values. -/
structure ExternalMessage where
  origin : String
  values : List String
deriving DecidableEq

/-- Notification variants (spec §3 `NotificationMessage`). -/
inductive NotificationMessage where
  | FieldVerified (context : IdentityContext) (value : String)
  | FieldVerificationFailed (context : IdentityContext) (value : String)
  | IdentityFullyVerified (context : IdentityContext)
  | JudgementProvided (context : IdentityContext)
deriving DecidableEq

/-- Immutable event envelope `{id, event}` (spec §3 `Event`, written by
`Event::new(event, gen_id())`). -/
structure Event where
  id : Int
  event : NotificationMessage
deriving DecidableEq

/-- The `Database` struct of database.rs: the two collections plus the
in-process `event_counter` (seeded from a timestamp in `Database::new`,
modelled as an arbitrary initial value). -/
structure Database where
  identities : List JudgementState
  event_log : List Event
  event_counter : Int
deriving DecidableEq

/-- Modelled from the spec: `IdentityFieldValue::matches` of `primitives.rs`
is absent; §4.2 step 2 locates "the specific field whose `value` corresponds
to the message account", i.e. value equality with the message origin. -/
def valueMatches (value : String) (m : ExternalMessage) : Bool :=
  decide (value = m.origin)

/-- Modelled from the spec: `ExpectedChallenge::verify_message` of
`primitives.rs` is absent; §4.2 steps 4-5 evaluate whether the message
satisfies the expected challenge (modelled: some payload value equals the
challenge value) and, on success, set `is_verified = true` on the in-memory
challenge (the spec's "post-mutation snapshot").  Returns the updated
in-memory challenge together with the outcome. -/
def ExpectedChallenge.verify_message (c : ExpectedChallenge) (m : ExternalMessage) :
    ExpectedChallenge × Bool :=
  if m.values.any (fun v => decide (v = c.value)) then
    ({ c with is_verified := true }, true)
  else
    (c, false)

/-- Modelled from the spec: `JudgementState::is_fully_verified()` of
`primitives.rs` is absent; §3 defines full verification as every field's
expected challenge verified and, if present, its second challenge satisfied.
Named `computeFullyVerified` to keep it apart from the stored flag. -/
def JudgementState.computeFullyVerified (s : JudgementState) : Bool :=
  s.fields.all (fun f =>
    f.expected_challenge.is_verified &&
      (match f.second_expected_challenge with
       | some c => c.is_verified
       | none => true))

/-- `update_one`: update the first element satisfying `p` by `f`, leave the
rest unchanged (MongoDB updates the first matching document in natural
order; the positional `$` operator likewise updates the first matching
array element). -/
def updateFirstWith {α : Type} (p : α → Bool) (f : α → α) : List α → List α
  | [] => []
  | x :: xs => if p x then f x :: xs else x :: updateFirstWith p f xs

/-- Replace the first occurrence of `s` by `r`. -/
def replaceFirst {α : Type} [DecidableEq α] (s r : α) (l : List α) : List α :=
  updateFirstWith (fun t => decide (t = s)) (fun _ => r) l

/-- The field-merge loop of `Database::add_judgement_request`: for each field
of the incoming request, keep the stored field with the same value if one
exists, otherwise take the incoming field. -/
def mergeFields (currentFields newFields : List IdentityField) : List IdentityField :=
  newFields.map (fun new_field =>
    match currentFields.find? (fun cur => decide (cur.value = new_field.value)) with
    | some current_field => current_field
    | none => new_field)

/-- `Database::fetch_judgement_state`: `find_one` on the context. -/
def Database.fetch_judgement_state (db : Database) (context : IdentityContext) :
    Option JudgementState :=
  db.identities.find? (fun s => decide (s.context = context))

/-- `Database::add_judgement_request`: look up an existing record by context;
if found, merge field-by-field, reset `is_fully_verified` when the merged
field sequence is non-empty, and write the result back; otherwise insert the
request verbatim. -/
def Database.add_judgement_request (db : Database) (request : JudgementState) : Database :=
  match db.identities.find? (fun s => decide (s.context = request.context)) with
  | some current =>
    let to_add := mergeFields current.fields request.fields
    let flag := if !to_add.isEmpty then false else current.is_fully_verified
    { db with
      identities := updateFirstWith (fun s => decide (s.context = request.context))
        (fun s => { s with is_fully_verified := flag, fields := to_add }) db.identities }
  | none => { db with identities := db.identities ++ [request] }

/-- The success-path `update_one` of `verify_message`: filter on
`fields.value == origin` and `fields.expected_challenge.value == chal`,
positional `$set` of `is_verified = true` on the first field matching both
conditions of the first matching document. -/
def setVerifiedUpdate (origin chal : String) (ids : List JudgementState) :
    List JudgementState :=
  updateFirstWith
    (fun s => s.fields.any (fun f => decide (f.value = origin)) &&
      s.fields.any (fun f => decide (f.expected_challenge.value = chal)))
    (fun s => { s with fields := (updateFirstWith
      (fun f => decide (f.value = origin) && decide (f.expected_challenge.value = chal))
      (fun f => { f with expected_challenge := { f.expected_challenge with is_verified := true } })
      s.fields) })
    ids

/-- The failure-path `update_one` of `verify_message`: filter on
`fields.value == origin`, positional `$inc` of `failed_attempts` on the first
matching field of the first matching document. -/
def incFailedUpdate (origin : String) (ids : List JudgementState) : List JudgementState :=
  updateFirstWith (fun s => s.fields.any (fun f => decide (f.value = origin)))
    (fun s => { s with fields := (updateFirstWith (fun f => decide (f.value = origin))
      (fun f => { f with failed_attempts := f.failed_attempts + 1 }) s.fields) })
    ids

/-- The fully-verified `update_one` of `verify_message`: filter on the
context, `$set` of `is_fully_verified = true` on the first matching
document. -/
def setFullyVerifiedUpdate (ctx : IdentityContext) (ids : List JudgementState) :
    List JudgementState :=
  updateFirstWith (fun s => decide (s.context = ctx))
    (fun s => { s with is_fully_verified := true }) ids

/-- The in-memory record after the `&mut` call
`field_state.expected_challenge.verify_message(&message)`: the first field
matching the message has its challenge replaced by the post-call challenge. -/
def mutSnapshot (m : ExternalMessage) (s : JudgementState) : JudgementState :=
  { s with fields := (updateFirstWith (fun f => valueMatches f.value m)
      (fun f => { f with expected_challenge := (f.expected_challenge.verify_message m).1 })
      s.fields) }

/-- The in-memory record that reaches the `is_fully_verified()` check of the
loop body: mutated by `verify_message` only when the found field's challenge
was not yet verified. -/
def recordSnapshotAfter (m : ExternalMessage) (s : JudgementState) : JudgementState :=
  match s.fields.find? (fun f => valueMatches f.value m) with
  | none => s
  | some field_state =>
    if field_state.expected_challenge.is_verified = false then mutSnapshot m s else s

/-- Tail of the loop body of `verify_message`: the "check if all fields have
been verified" step on the in-memory snapshot, issuing the fully-verified
update and the `IdentityFullyVerified` event when it holds. -/
def finishRecord (snap : JudgementState) (ids : List JudgementState)
    (events : List NotificationMessage) :
    List JudgementState × List NotificationMessage :=
  if snap.computeFullyVerified then
    (setFullyVerifiedUpdate snap.context ids,
      events ++ [NotificationMessage.IdentityFullyVerified snap.context])
  else
    (ids, events)

/-- One iteration of the cursor loop of `Database::verify_message` over the
snapshot record `s`, acting on the current collection state `ids` and the
accumulated events. -/
def processRecord (m : ExternalMessage) (ids : List JudgementState)
    (events : List NotificationMessage) (s : JudgementState) :
    Except String (List JudgementState × List NotificationMessage) :=
  match s.fields.find? (fun f => valueMatches f.value m) with
  | none => Except.error "Failed to select field when verifying message"
  | some field_state =>
    if field_state.expected_challenge.is_verified = false then
      if (field_state.expected_challenge.verify_message m).2 then
        Except.ok (finishRecord (mutSnapshot m s)
          (setVerifiedUpdate m.origin field_state.expected_challenge.value ids)
          (events ++ [NotificationMessage.FieldVerified s.context field_state.value]))
      else
        Except.ok (finishRecord (mutSnapshot m s) (incFailedUpdate m.origin ids)
          (events ++ [NotificationMessage.FieldVerificationFailed s.context field_state.value]))
    else if field_state.second_expected_challenge.isSome then
      Except.ok (finishRecord s ids events)
    else
      Except.ok (ids, events)

/-- Does a stored record match the coarse `find` query
`{"fields.value": message.origin}`? -/
def coarseMatches (s : JudgementState) (m : ExternalMessage) : Bool :=
  s.fields.any (fun f => decide (f.value = m.origin))

/-- The `while let Some(doc) = cursor.next()` loop of `verify_message`,
threading the collection state and the event accumulator and propagating the
field-selection error. -/
def verifyLoop (m : ExternalMessage) (acc : List JudgementState × List NotificationMessage) :
    List JudgementState → Except String (List JudgementState × List NotificationMessage)
  | [] => Except.ok acc
  | s :: rest =>
    match processRecord m acc.1 acc.2 s with
    | Except.error e => Except.error e
    | Except.ok acc' => verifyLoop m acc' rest

/-- `Database::verify_message`: run the loop over the snapshot of records
matching the coarse query, returning the updated identities and the emitted
notifications. -/
def Database.verify_message (db : Database) (m : ExternalMessage) :
    Except String (List JudgementState × List NotificationMessage) :=
  verifyLoop m (db.identities, []) (db.identities.filter (fun s => coarseMatches s m))

/-- The event-append loop shared by `process_message` and
`log_judgement_provided`: each event receives `gen_id()` (increment the
counter, then use it) and is inserted into the event log. -/
def appendEvents (db : Database) (events : List NotificationMessage) : Database :=
  events.foldl (fun d ev =>
    { d with
      event_counter := d.event_counter + 1,
      event_log := d.event_log ++ [{ id := d.event_counter + 1, event := ev }] }) db

/-- `Database::process_message`: verify the message, then append the
resulting events to the event log. -/
def Database.process_message (db : Database) (m : ExternalMessage) : Except String Database :=
  match db.verify_message m with
  | Except.error e => Except.error e
  | Except.ok r => Except.ok (appendEvents { db with identities := r.1 } r.2)

/-- `Database::log_judgement_provided`: append one `JudgementProvided`
event. -/
def Database.log_judgement_provided (db : Database) (context : IdentityContext) : Database :=
  appendEvents db [NotificationMessage.JudgementProvided context]

/-- The body of `Database::fetch_events` (the spec's `read_after`): filter
the log on `id > cursor` in natural order, and track the running maximum of
the returned ids as the new cursor. -/
def readAfter (cursor : Int) (log : List Event) : Int × List Event :=
  let evs := log.filter (fun e => decide (cursor < e.id))
  (evs.foldl (fun c e => max c e.id) cursor, evs)

/-- `Database::fetch_events`: read after the in-memory counter, advance the
counter to the maximum id seen, and return the wrapped notifications. -/
def Database.fetch_events (db : Database) : Database × List NotificationMessage :=
  let r := readAfter db.event_counter db.event_log
  ({ db with event_counter := r.1 }, r.2.map Event.event)

/-- A `process_message` call as a state transition; the Rust caller observes
the error after the storage mutations of `verify_message` already landed,
but the only error source (`FieldSelectionError`) is unreachable here, so
the error branch keeps the state. -/
def applyMessage (db : Database) (m : ExternalMessage) : Database :=
  match db.process_message m with
  | Except.ok db' => db'
  | Except.error _ => db

/-- Sequence of read-after cursors: run `fetch_events` repeatedly on one
`Database` instance, the event log possibly changed (by other writers)
between calls; returns the batches of events each call yields. -/
def fetchSeq (cursor : Int) : List (List Event) → List (List Event)
  | [] => []
  | log :: rest => (readAfter cursor log).2 :: fetchSeq (readAfter cursor log).1 rest

/-- Does a request satisfy the §3 invariant direction "stored flag implies
every field verified"? -/
def flagOk (r : JudgementState) : Bool :=
  !r.is_fully_verified || r.fields.all (fun f => f.expected_challenge.is_verified)

/-- Are all (reserved) second challenges of a record unverified?  Incoming
requests carry fresh, unverified challenges (spec §4.1), and no code path
verifies a second challenge (spec §9). -/
def secondsUnverified (s : JudgementState) : Bool :=
  s.fields.all (fun f =>
    match f.second_expected_challenge with
    | some c => !c.is_verified
    | none => true)

/-- Does the message's origin match at most one stored record (spec §4.2:
"in practice at most one live field should match")? -/
def singleMatch (db : Database) (m : ExternalMessage) : Bool :=
  decide ((db.identities.filter (fun s => coarseMatches s m)).length ≤ 1)

/-- No constraint on submitted requests. -/
def AnyRequest : JudgementState → Prop := fun _ => True

/-- No constraint on processed messages. -/
def AnyMessage : Database → ExternalMessage → Prop := fun _ _ => True

/-- Stores reachable from an empty store (any initial counter, as seeded by
`Database::new`) by the public write operations, with submitted requests
constrained by `P` and processed messages by `G`. -/
inductive Reach (P : JudgementState → Prop) (G : Database → ExternalMessage → Prop) :
    Database → Prop where
  | init (c : Int) : Reach P G { identities := [], event_log := [], event_counter := c }
  | submit {db : Database} {r : JudgementState} :
      Reach P G db → P r → Reach P G (db.add_judgement_request r)
  | message {db : Database} {m : ExternalMessage} :
      Reach P G db → G db m → Reach P G (applyMessage db m)
  | provided {db : Database} {c : IdentityContext} :
      Reach P G db → Reach P G (db.log_judgement_provided c)
  | fetch {db : Database} :
      Reach P G db → Reach P G (db.fetch_events).1

/-- The event-log invariant maintained by the single-owner id sequence:
ids strictly increase in insertion order and never exceed the counter. -/
def EventInv (db : Database) : Prop :=
  db.event_log.Pairwise (fun a b => a.id < b.id) ∧
    ∀ e ∈ db.event_log, e.id ≤ db.event_counter

/-- One live record per context (spec §3). -/
def CtxNodup (db : Database) : Prop :=
  (db.identities.map (fun s => s.context)).Nodup

/-- Every stored record has only unverified second challenges. -/
def AllSeconds (db : Database) : Prop :=
  ∀ s ∈ db.identities, secondsUnverified s = true

/-- The §3 full-verification invariant, flag-to-fields direction. -/
def FlagInv (db : Database) : Prop :=
  ∀ s ∈ db.identities, s.is_fully_verified = true →
    ∀ f ∈ s.fields, f.expected_challenge.is_verified = true

/-! ### Concrete states used by counterexamples and witnesses -/

/-- Example context A. -/
def exCtxA : IdentityContext := ⟨"polkadot", "addrA"⟩

/-- Example context B. -/
def exCtxB : IdentityContext := ⟨"polkadot", "addrB"⟩

/-- Example unverified challenge. -/
def exChal : ExpectedChallenge := ⟨"chal", false⟩

/-- Example field claiming the external account "acct". -/
def exField : IdentityField := ⟨"acct", exChal, none, 0⟩

/-- Example fresh request for context A. -/
def exReq1 : JudgementState := ⟨exCtxA, false, [exField]⟩

/-- Example fresh request for context B with the same field value and the
same challenge value as `exReq1`. -/
def exReq2 : JudgementState := ⟨exCtxB, false, [exField]⟩

/-- Example message carrying the correct challenge answer for `exField`. -/
def exMsg : ExternalMessage := ⟨"acct", ["chal"]⟩

/-- Empty store. -/
def exDb0 : Database := ⟨[], [], 0⟩

/-- Store holding `exReq1` and `exReq2`, then hit by `exMsg`: the positional
success update lands on record A both times, while the in-memory check marks
record B fully verified. -/
def exDbAliased : Database :=
  applyMessage ((exDb0.add_judgement_request exReq1).add_judgement_request exReq2) exMsg

/-- Example field whose challenge is already verified. -/
def exFieldVerified : IdentityField := ⟨"acct", ⟨"chal", true⟩, none, 0⟩

/-- A judgement request whose `is_fully_verified` flag is `true` (its single
field verified, so the §3 data-model invariant holds for it). -/
def exReqFlagTrue : JudgementState := ⟨exCtxA, true, [exFieldVerified]⟩

/-! ### Basic lemmas about `updateFirstWith` and `replaceFirst` -/

theorem updateFirstWith_nil {α : Type} (p : α → Bool) (f : α → α) :
    updateFirstWith p f [] = [] := rfl

theorem updateFirstWith_cons_pos {α : Type} {p : α → Bool} (f : α → α) {x : α} (l : List α)
    (h : p x = true) : updateFirstWith p f (x :: l) = f x :: l := by
  simp [updateFirstWith, h]

theorem updateFirstWith_cons_neg {α : Type} {p : α → Bool} (f : α → α) {x : α} (l : List α)
    (h : p x = false) : updateFirstWith p f (x :: l) = x :: updateFirstWith p f l := by
  simp [updateFirstWith, h]

theorem mem_updateFirstWith {α : Type} {p : α → Bool} {f : α → α} {l : List α} {y : α}
    (h : y ∈ updateFirstWith p f l) : y ∈ l ∨ ∃ x ∈ l, p x = true ∧ y = f x := by
  induction l with
  | nil => simp [updateFirstWith] at h
  | cons x xs ih =>
    by_cases hp : p x = true
    · rw [updateFirstWith_cons_pos f xs hp] at h
      rcases List.mem_cons.mp h with h | h
      · exact Or.inr ⟨x, List.mem_cons_self x xs, hp, h⟩
      · exact Or.inl (List.mem_cons_of_mem x h)
    · rw [updateFirstWith_cons_neg f xs (by simpa using hp)] at h
      rcases List.mem_cons.mp h with h | h
      · exact Or.inl (h ▸ List.mem_cons_self x xs)
      · rcases ih h with h | ⟨z, hz, hpz, hy⟩
        · exact Or.inl (List.mem_cons_of_mem x h)
        · exact Or.inr ⟨z, List.mem_cons_of_mem x hz, hpz, hy⟩

theorem exists_updateFirstWith {α : Type} {p : α → Bool} {f : α → α} {l : List α} {x : α}
    (h : x ∈ l) : ∃ y ∈ updateFirstWith p f l, y = x ∨ y = f x := by
  induction l with
  | nil => simp at h
  | cons a xs ih =>
    by_cases hp : p a = true
    · rw [updateFirstWith_cons_pos f xs hp]
      rcases List.mem_cons.mp h with rfl | h
      · exact ⟨f x, List.mem_cons_self _ _, Or.inr rfl⟩
      · exact ⟨x, List.mem_cons_of_mem _ h, Or.inl rfl⟩
    · rw [updateFirstWith_cons_neg f xs (by simpa using hp)]
      rcases List.mem_cons.mp h with rfl | h
      · exact ⟨x, List.mem_cons_self _ _, Or.inl rfl⟩
      · rcases ih h with ⟨y, hy, hxy⟩
        exact ⟨y, List.mem_cons_of_mem _ hy, hxy⟩

theorem updateFirstWith_of_find?_none {α : Type} {p : α → Bool} (f : α → α) {l : List α}
    (h : l.find? p = none) : updateFirstWith p f l = l := by
  induction l with
  | nil => rfl
  | cons x xs ih =>
    by_cases hp : p x = true
    · rw [List.find?_cons_of_pos _ hp] at h
      exact absurd h (by simp)
    · simp only [Bool.not_eq_true] at hp
      rw [List.find?_cons_of_neg _ (by simp [hp])] at h
      rw [updateFirstWith_cons_neg f xs hp, ih h]

theorem updateFirstWith_of_fix {α : Type} {p : α → Bool} {f : α → α} {l : List α} {x : α}
    (h : l.find? p = some x) (hfix : f x = x) : updateFirstWith p f l = l := by
  induction l with
  | nil => simp at h
  | cons a xs ih =>
    rw [List.find?_cons] at h
    by_cases hp : p a = true
    · simp [hp] at h
      rw [updateFirstWith_cons_pos f xs hp, h, hfix]
    · simp only [Bool.not_eq_true] at hp
      simp [hp] at h
      rw [updateFirstWith_cons_neg f xs hp, ih h]

theorem map_updateFirstWith {α β : Type} {p : α → Bool} {f : α → α} (g : α → β) (l : List α)
    (h : ∀ x, g (f x) = g x) : (updateFirstWith p f l).map g = l.map g := by
  induction l with
  | nil => rfl
  | cons x xs ih =>
    by_cases hp : p x = true
    · rw [updateFirstWith_cons_pos f xs hp]
      simp [h x]
    · rw [updateFirstWith_cons_neg f xs (by simpa using hp)]
      simp [ih]

theorem find?_updateFirstWith {α : Type} {p : α → Bool} {f : α → α} {l : List α} {x : α}
    (h : l.find? p = some x) (hpf : p (f x) = true) :
    (updateFirstWith p f l).find? p = some (f x) := by
  induction l with
  | nil => simp at h
  | cons a xs ih =>
    rw [List.find?_cons] at h
    by_cases hp : p a = true
    · simp [hp] at h
      subst h
      rw [updateFirstWith_cons_pos f xs hp, List.find?_cons_of_pos _ hpf]
    · simp only [Bool.not_eq_true] at hp
      simp [hp] at h
      rw [updateFirstWith_cons_neg f xs hp, List.find?_cons_of_neg _ (by simp [hp]), ih h]

theorem updateFirstWith_eq_replaceFirst {α : Type} [DecidableEq α] {p : α → Bool} {f : α → α}
    {l : List α} {s : α} (hs : s ∈ l) (hps : p s = true)
    (honly : ∀ x ∈ l, x ≠ s → p x = false) :
    updateFirstWith p f l = replaceFirst s (f s) l := by
  induction l with
  | nil => simp at hs
  | cons a xs ih =>
    by_cases ha : a = s
    · subst ha
      rw [updateFirstWith_cons_pos f xs hps]
      unfold replaceFirst
      rw [updateFirstWith_cons_pos _ xs (by simp)]
    · have hpa : p a = false := honly a (List.mem_cons_self a xs) ha
      have hs' : s ∈ xs := by
        rcases List.mem_cons.mp hs with h | h
        · exact absurd h.symm ha
        · exact h
      rw [updateFirstWith_cons_neg f xs hpa]
      unfold replaceFirst
      rw [updateFirstWith_cons_neg _ xs (by simp [ha])]
      have := ih hs' (fun x hx hxs => honly x (List.mem_cons_of_mem a hx) hxs)
      rw [this]
      rfl

theorem mem_replaceFirst {α : Type} [DecidableEq α] {s r y : α} {l : List α}
    (h : y ∈ replaceFirst s r l) : y ∈ l ∨ y = r := by
  rcases mem_updateFirstWith h with h | ⟨x, _, _, hy⟩
  · exact Or.inl h
  · exact Or.inr hy

theorem replaceFirst_cons_self {α : Type} [DecidableEq α] (s r : α) (l : List α) :
    replaceFirst s r (s :: l) = r :: l := by
  unfold replaceFirst
  rw [updateFirstWith_cons_pos _ l (by simp)]

theorem replaceFirst_cons_of_ne {α : Type} [DecidableEq α] {a s : α} (r : α) (l : List α)
    (h : a ≠ s) : replaceFirst s r (a :: l) = a :: replaceFirst s r l := by
  unfold replaceFirst
  rw [updateFirstWith_cons_neg _ l (by simp [h])]

/-! ### Lemmas about the merge of `add_judgement_request` -/

theorem mergeFields_nil (c : List IdentityField) : mergeFields c [] = [] := rfl

theorem mergeFields_cons (c : List IdentityField) (g : IdentityField)
    (rf : List IdentityField) :
    mergeFields c (g :: rf) =
      (match c.find? (fun cur => decide (cur.value = g.value)) with
       | some current_field => current_field
       | none => g) :: mergeFields c rf := rfl

theorem value_of_find?_value {c : List IdentityField} {v : String} {x : IdentityField}
    (h : c.find? (fun cur => decide (cur.value = v)) = some x) : x.value = v := by
  have := List.find?_some h
  simpa using this

theorem mergeFields_map_value (c rf : List IdentityField) :
    (mergeFields c rf).map (fun f => f.value) = rf.map (fun f => f.value) := by
  induction rf with
  | nil => rfl
  | cons g rest ih =>
    rw [mergeFields_cons]
    cases hfind : c.find? (fun cur => decide (cur.value = g.value)) with
    | none => simpa using ih
    | some x =>
      have hx := value_of_find?_value hfind
      simpa [hx] using ih

theorem mergeFields_isEmpty (c rf : List IdentityField) :
    (mergeFields c rf).isEmpty = rf.isEmpty := by
  cases rf with
  | nil => rfl
  | cons g rest => rw [mergeFields_cons]; rfl

theorem mem_mergeFields {c rf : List IdentityField} {x : IdentityField}
    (h : x ∈ mergeFields c rf) : x ∈ c ∨ x ∈ rf := by
  unfold mergeFields at h
  rcases List.mem_map.mp h with ⟨g, hg, hx⟩
  cases hfind : c.find? (fun cur => decide (cur.value = g.value)) with
  | none => rw [hfind] at hx; exact Or.inr (hx ▸ hg)
  | some y =>
    rw [hfind] at hx
    exact Or.inl (hx ▸ List.mem_of_find?_eq_some hfind)

theorem entry_mem_mergeFields {c rf : List IdentityField} {g : IdentityField} (hg : g ∈ rf) :
    (match c.find? (fun cur => decide (cur.value = g.value)) with
     | some current_field => current_field
     | none => g) ∈ mergeFields c rf := by
  unfold mergeFields
  exact List.mem_map.mpr ⟨g, hg, rfl⟩

theorem mergeFields_drop_head {a : IdentityField} {A rf : List IdentityField}
    (h : ∀ g ∈ rf, ¬(a.value = g.value)) :
    mergeFields (a :: A) rf = mergeFields A rf := by
  induction rf with
  | nil => rfl
  | cons g rest ih =>
    rw [mergeFields_cons, mergeFields_cons]
    have hag : ¬(a.value = g.value) := h g (List.mem_cons_self g rest)
    rw [List.find?_cons_of_neg _ (by simp [hag])]
    rw [ih (fun x hx => h x (List.mem_cons_of_mem g hx))]

theorem mergeFields_self_like {A rf : List IdentityField}
    (hvals : A.map (fun f => f.value) = rf.map (fun f => f.value))
    (hnodup : (rf.map (fun f => f.value)).Nodup) : mergeFields A rf = A := by
  induction rf generalizing A with
  | nil =>
    cases A with
    | nil => rfl
    | cons a as => simp at hvals
  | cons g rest ih =>
    cases A with
    | nil => simp at hvals
    | cons a as =>
      simp only [List.map_cons, List.cons.injEq] at hvals
      obtain ⟨hav, htail⟩ := hvals
      rw [mergeFields_cons, List.find?_cons_of_pos _ (by simp [hav])]
      simp only [List.map_cons, List.nodup_cons] at hnodup
      obtain ⟨hgn, hrest⟩ := hnodup
      have hdrop : ∀ x ∈ rest, ¬(a.value = x.value) := by
        intro x hx hax
        exact hgn (by rw [← hav, hax]; exact List.mem_map.mpr ⟨x, hx, rfl⟩)
      rw [mergeFields_drop_head hdrop, ih htail hrest]

theorem find?_value_of_nodup {cur : List IdentityField} {f : IdentityField} {v : String}
    (hf : f ∈ cur) (hv : f.value = v) (hnodup : (cur.map (fun x => x.value)).Nodup) :
    cur.find? (fun x => decide (x.value = v)) = some f := by
  induction cur with
  | nil => simp at hf
  | cons a rest ih =>
    simp only [List.map_cons, List.nodup_cons] at hnodup
    obtain ⟨han, hrest⟩ := hnodup
    rcases List.mem_cons.mp hf with rfl | hf'
    · rw [List.find?_cons_of_pos _ (by simp [hv])]
    · have hav : ¬(a.value = v) := by
        intro hav
        exact han (by rw [hav, ← hv]; exact List.mem_map.mpr ⟨f, hf', rfl⟩)
      rw [List.find?_cons_of_neg _ (by simp [hav]), ih hf' hrest]

/-! ### `add_judgement_request` and `fetch_judgement_state` -/

theorem find?_append_of_none {α : Type} {p : α → Bool} {l : List α} (l' : List α)
    (h : l.find? p = none) : (l ++ l').find? p = l'.find? p := by
  induction l with
  | nil => rfl
  | cons x xs ih =>
    by_cases hp : p x = true
    · rw [List.find?_cons_of_pos _ hp] at h
      exact absurd h (by simp)
    · simp only [Bool.not_eq_true] at hp
      rw [List.find?_cons_of_neg _ (by simp [hp])] at h
      rw [List.cons_append, List.find?_cons_of_neg _ (by simp [hp]), ih h]

theorem context_of_fetch {db : Database} {ctx : IdentityContext} {cur : JudgementState}
    (h : db.fetch_judgement_state ctx = some cur) : cur.context = ctx := by
  have := List.find?_some h
  simpa using this

theorem add_fetch_of_found {db : Database} {request cur : JudgementState}
    (h : db.fetch_judgement_state request.context = some cur) :
    (db.add_judgement_request request).fetch_judgement_state request.context =
      some { cur with
        is_fully_verified :=
          if !(mergeFields cur.fields request.fields).isEmpty then false
          else cur.is_fully_verified,
        fields := mergeFields cur.fields request.fields } := by
  unfold Database.fetch_judgement_state at h
  unfold Database.add_judgement_request Database.fetch_judgement_state
  rw [h]
  simp only []
  exact find?_updateFirstWith h (by simpa using context_of_fetch h)

/-- C7 helper: the stored flag after a merge. -/
theorem add_flag_of_found {db : Database} {request cur : JudgementState}
    (h : db.fetch_judgement_state request.context = some cur) :
    ∃ cur', (db.add_judgement_request request).fetch_judgement_state request.context = some cur' ∧
      cur'.is_fully_verified =
        (if !(mergeFields cur.fields request.fields).isEmpty then false
         else cur.is_fully_verified) ∧
      cur'.fields = mergeFields cur.fields request.fields :=
  ⟨_, add_fetch_of_found h, rfl, rfl⟩

/-! ### Claim C1: merge idempotence of `submit_request` -/

/-- C1, as stated, fails on the code: submitting the same request twice is
not idempotent when the request carries `is_fully_verified = true` (here a
data-model-valid request whose single field is verified).  The first call
inserts the request verbatim with flag `true`; the second call merges and
forces the flag to `false`. -/
theorem claim_C1_counterexample :
    ((exDb0.add_judgement_request exReqFlagTrue).add_judgement_request
        exReqFlagTrue).fetch_judgement_state exCtxA ≠
      (exDb0.add_judgement_request exReqFlagTrue).fetch_judgement_state exCtxA := by
  decide

/-- C1 (amended): for every store state and every judgement request whose
field values are pairwise distinct (the §3 data-model invariant) and whose
`is_fully_verified` flag is `false` (as on freshly created requests),
submitting the request twice in a row leaves the whole store — in particular
the stored record for the request's context — identical to the state after
the first call; no call raises an error (the operation is total apart from
storage I/O, which is out of scope). -/
theorem claim_C1_amended (db : Database) (request : JudgementState)
    (h1 : (request.fields.map (fun f => f.value)).Nodup)
    (h2 : request.is_fully_verified = false) :
    (db.add_judgement_request request).add_judgement_request request =
      db.add_judgement_request request := by
  cases hfind : db.identities.find? (fun s => decide (s.context = request.context)) with
  | some cur =>
    have hctx : cur.context = request.context := by
      have := List.find?_some hfind
      simpa using this
    have hstep : db.add_judgement_request request =
        { db with
          identities := updateFirstWith (fun s => decide (s.context = request.context))
            (fun s => { s with
              is_fully_verified :=
                if !(mergeFields cur.fields request.fields).isEmpty then false
                else cur.is_fully_verified,
              fields := mergeFields cur.fields request.fields }) db.identities } := by
      unfold Database.add_judgement_request
      rw [hfind]
    set upd := fun s : JudgementState => { s with
      is_fully_verified :=
        if !(mergeFields cur.fields request.fields).isEmpty then false
        else cur.is_fully_verified,
      fields := mergeFields cur.fields request.fields } with hupd
    have hfind2 : (updateFirstWith (fun s => decide (s.context = request.context)) upd
        db.identities).find? (fun s => decide (s.context = request.context)) =
        some (upd cur) :=
      find?_updateFirstWith hfind (by simp [hupd, hctx])
    have hmerge2 : mergeFields (upd cur).fields request.fields = (upd cur).fields := by
      apply mergeFields_self_like _ h1
      simp only [hupd]
      exact mergeFields_map_value cur.fields request.fields
    have hflag : (if !(mergeFields (upd cur).fields request.fields).isEmpty then false
        else (upd cur).is_fully_verified) = (upd cur).is_fully_verified := by
      rw [hmerge2]
      have hiE : (upd cur).fields.isEmpty = request.fields.isEmpty := by
        simp [hupd, mergeFields_isEmpty]
      by_cases hempty : request.fields.isEmpty = true
      · simp [hiE, hempty]
      · simp only [Bool.not_eq_true] at hempty
        have hflagval : (upd cur).is_fully_verified = false := by
          simp [hupd, mergeFields_isEmpty, hempty]
        simp [hiE, hempty, hflagval]
    have hfix : (fun s : JudgementState => { s with
        is_fully_verified :=
          if !(mergeFields (upd cur).fields request.fields).isEmpty then false
          else (upd cur).is_fully_verified,
        fields := mergeFields (upd cur).fields request.fields }) (upd cur) = upd cur := by
      simp only [hmerge2, hflag]
      by_cases hc : (!(mergeFields cur.fields request.fields).isEmpty) = true <;>
        simp [hupd, hc]
    rw [hstep]
    unfold Database.add_judgement_request
    simp only []
    rw [hfind2]
    simp only []
    rw [updateFirstWith_of_fix hfind2 hfix]
  | none =>
    have hstep : db.add_judgement_request request =
        { db with identities := db.identities ++ [request] } := by
      unfold Database.add_judgement_request
      rw [hfind]
    have hfind2 : (db.identities ++ [request]).find?
        (fun s => decide (s.context = request.context)) = some request := by
      rw [find?_append_of_none _ hfind, List.find?_cons_of_pos _ (by simp)]
    have hmerge2 : mergeFields request.fields request.fields = request.fields :=
      mergeFields_self_like rfl h1
    have hfix : (fun s : JudgementState => { s with
        is_fully_verified :=
          if !(mergeFields request.fields request.fields).isEmpty then false
          else request.is_fully_verified,
        fields := mergeFields request.fields request.fields }) request = request := by
      have hflag : (if !(mergeFields request.fields request.fields).isEmpty then false
          else request.is_fully_verified) = request.is_fully_verified := by
        rw [hmerge2]
        by_cases hempty : request.fields.isEmpty = true
        · simp [hempty]
        · simp only [Bool.not_eq_true] at hempty
          simp [hempty, h2]
      simp only [hmerge2, hflag]
      cases request with
      | mk ctx flag fs =>
        simp only [JudgementState.is_fully_verified] at h2
        subst h2
        simp
    rw [hstep]
    unfold Database.add_judgement_request
    simp only []
    rw [hfind2]
    simp only []
    rw [updateFirstWith_of_fix hfind2 hfix]

/-- C1 witness: submitting a concrete fresh request twice leaves the store of
the first call unchanged. -/
theorem claim_C1_witness :
    ((exReq1.fields.map (fun f => f.value)).Nodup ∧ exReq1.is_fully_verified = false) ∧
      (exDb0.add_judgement_request exReq1).add_judgement_request exReq1 =
        exDb0.add_judgement_request exReq1 :=
  ⟨⟨by decide, by decide⟩, claim_C1_amended exDb0 exReq1 (by decide) (by decide)⟩

/-! ### Claim C7: resubmission invalidates full verification -/

/-- C7: for every existing stored record, after `submit_request` the stored
flag is `false` whenever the merged field sequence is non-empty, and is the
previous value whenever the merged field sequence is empty. -/
theorem claim_C7 (db : Database) (request cur : JudgementState)
    (h : db.fetch_judgement_state request.context = some cur) :
    ∃ cur',
      (db.add_judgement_request request).fetch_judgement_state request.context = some cur' ∧
      ((mergeFields cur.fields request.fields).isEmpty = false →
        cur'.is_fully_verified = false) ∧
      ((mergeFields cur.fields request.fields).isEmpty = true →
        cur'.is_fully_verified = cur.is_fully_verified) := by
  refine ⟨_, add_fetch_of_found h, ?_, ?_⟩ <;> intro hE <;> simp [hE]

/-- C7 witness: resubmitting over a concrete fully-verified stored record
forces the stored flag back to `false`. -/
theorem claim_C7_witness :
    ((exDb0.add_judgement_request exReqFlagTrue).fetch_judgement_state
        exReq1.context = some exReqFlagTrue) ∧
      ∃ cur',
        ((exDb0.add_judgement_request exReqFlagTrue).add_judgement_request
            exReq1).fetch_judgement_state exReq1.context = some cur' ∧
        ((mergeFields exReqFlagTrue.fields exReq1.fields).isEmpty = false →
          cur'.is_fully_verified = false) ∧
        ((mergeFields exReqFlagTrue.fields exReq1.fields).isEmpty = true →
          cur'.is_fully_verified = exReqFlagTrue.is_fully_verified) :=
  ⟨by decide, claim_C7 (exDb0.add_judgement_request exReqFlagTrue) exReq1 exReqFlagTrue
    (by decide)⟩

/-! ### Claim C5: progress preservation under merge -/

/-- C5: a stored record (field values pairwise distinct, per the §3
data-model invariant) containing a verified field `f` keeps `f` — challenge
state and `is_verified = true` — unchanged when a request for the same
context resubmits the same field value, and receives the incoming field
verbatim (with its fresh, unverified challenge) when the request's field
value matches no stored field. -/
theorem claim_C5 (db : Database) (request cur : JudgementState) (f : IdentityField)
    (hstate : db.fetch_judgement_state request.context = some cur)
    (hnodup : (cur.fields.map (fun x => x.value)).Nodup)
    (hf : f ∈ cur.fields) (hver : f.expected_challenge.is_verified = true) :
    ∃ cur',
      (db.add_judgement_request request).fetch_judgement_state request.context = some cur' ∧
      (∀ g ∈ request.fields, g.value = f.value →
        f ∈ cur'.fields ∧ f.expected_challenge.is_verified = true) ∧
      (∀ g ∈ request.fields, (∀ cf ∈ cur.fields, cf.value ≠ g.value) → g ∈ cur'.fields) := by
  refine ⟨_, add_fetch_of_found hstate, ?_, ?_⟩
  · intro g hg hgv
    have hfind : cur.fields.find? (fun x => decide (x.value = g.value)) = some f :=
      find?_value_of_nodup hf hgv.symm hnodup
    have hmem := entry_mem_mergeFields (c := cur.fields) hg
    rw [hfind] at hmem
    exact ⟨by simpa using hmem, hver⟩
  · intro g hg hnone
    have hfind : cur.fields.find? (fun x => decide (x.value = g.value)) = none := by
      rw [List.find?_eq_none]
      intro x hx
      simp [hnone x hx]
    have hmem := entry_mem_mergeFields (c := cur.fields) hg
    rw [hfind] at hmem
    simpa using hmem

/-- C5 witness: a concrete store with a verified field, resubmitted with the
same field value, keeps the verified field. -/
theorem claim_C5_witness :
    ((exDb0.add_judgement_request exReqFlagTrue).fetch_judgement_state
        exReq1.context = some exReqFlagTrue) ∧
      ∃ cur',
        ((exDb0.add_judgement_request exReqFlagTrue).add_judgement_request
            exReq1).fetch_judgement_state exReq1.context = some cur' ∧
        (∀ g ∈ exReq1.fields, g.value = exFieldVerified.value →
          exFieldVerified ∈ cur'.fields ∧
            exFieldVerified.expected_challenge.is_verified = true) ∧
        (∀ g ∈ exReq1.fields, (∀ cf ∈ exReqFlagTrue.fields, cf.value ≠ g.value) →
          g ∈ cur'.fields) :=
  ⟨by decide, claim_C5 (exDb0.add_judgement_request exReqFlagTrue) exReq1 exReqFlagTrue
    exFieldVerified (by decide) (by decide) (by decide) (by decide)⟩

/-! ### Claim C8: unmatched messages are silently ignored -/

/-- C8: a message whose origin matches no field value of any stored record
makes `verify_message` return `Ok` with an empty event list and leaves the
store untouched; `process_message` likewise returns the unchanged database
(no identity mutation, no event appended). -/
theorem claim_C8 (db : Database) (m : ExternalMessage)
    (h : ∀ s ∈ db.identities, ∀ f ∈ s.fields, f.value ≠ m.origin) :
    db.verify_message m = Except.ok (db.identities, []) ∧
      db.process_message m = Except.ok db := by
  have hfilter : db.identities.filter (fun s => coarseMatches s m) = [] := by
    rw [List.filter_eq_nil_iff]
    intro s hs
    simp only [coarseMatches, List.any_eq_true, decide_eq_true_eq]
    rintro ⟨f, hf, hv⟩
    exact h s hs f hf hv
  constructor
  · unfold Database.verify_message
    rw [hfilter]
    rfl
  · unfold Database.process_message Database.verify_message
    rw [hfilter]
    rfl

/-- C8 witness: a concrete message whose origin matches nothing is ignored. -/
theorem claim_C8_witness :
    (∀ s ∈ (exDb0.add_judgement_request exReq1).identities, ∀ f ∈ s.fields,
      f.value ≠ (ExternalMessage.mk "stranger" []).origin) ∧
      ((exDb0.add_judgement_request exReq1).verify_message ⟨"stranger", []⟩ =
          Except.ok ((exDb0.add_judgement_request exReq1).identities, []) ∧
        (exDb0.add_judgement_request exReq1).process_message ⟨"stranger", []⟩ =
          Except.ok (exDb0.add_judgement_request exReq1)) :=
  ⟨by decide, claim_C8 (exDb0.add_judgement_request exReq1) ⟨"stranger", []⟩ (by decide)⟩

/-! ### Claim C9: `FieldSelectionError` is distinct from no-match -/

/-- C9: when a record reaches the per-record loop body (which happens exactly
for the records matching the coarse query) but no field inside it matches the
message, the loop returns the field-selection error; when no stored record
matches the coarse query at all, `verify_message` returns `Ok` with an empty
list and an untouched store.  The two outcomes are never conflated. -/
theorem claim_C9 (m : ExternalMessage) (db : Database) :
    (∀ ids evs s, s.fields.find? (fun f => valueMatches f.value m) = none →
      processRecord m ids evs s =
        Except.error "Failed to select field when verifying message") ∧
    ((∀ s ∈ db.identities, coarseMatches s m = false) →
      db.verify_message m = Except.ok (db.identities, [])) := by
  constructor
  · intro ids evs s hf
    unfold processRecord
    rw [hf]
  · intro h
    have hfilter : db.identities.filter (fun s => coarseMatches s m) = [] := by
      rw [List.filter_eq_nil_iff]
      intro s hs
      simp [h s hs]
    unfold Database.verify_message
    rw [hfilter]
    rfl

/-- C9 witness: a concrete record with no matching field produces the error,
while a store with no coarse match produces `Ok []`. -/
theorem claim_C9_witness :
    ((JudgementState.mk exCtxA false []).fields.find?
        (fun f => valueMatches f.value exMsg) = none ∧
      processRecord exMsg [] [] (JudgementState.mk exCtxA false []) =
        Except.error "Failed to select field when verifying message") ∧
    ((∀ s ∈ exDb0.identities, coarseMatches s exMsg = false) ∧
      exDb0.verify_message exMsg = Except.ok (exDb0.identities, [])) :=
  ⟨⟨by decide, (claim_C9 exMsg exDb0).1 [] [] (JudgementState.mk exCtxA false []) (by decide)⟩,
    ⟨by decide, (claim_C9 exMsg exDb0).2 (by decide)⟩⟩

/-! ### Event-log lemmas -/

theorem add_judgement_request_log (db : Database) (r : JudgementState) :
    (db.add_judgement_request r).event_log = db.event_log ∧
      (db.add_judgement_request r).event_counter = db.event_counter := by
  unfold Database.add_judgement_request
  cases db.identities.find? (fun s => decide (s.context = r.context)) with
  | none => exact ⟨rfl, rfl⟩
  | some cur => exact ⟨rfl, rfl⟩

theorem appendEvents_eventInv {db : Database} {evs : List NotificationMessage}
    (h : EventInv db) : EventInv (appendEvents db evs) := by
  induction evs generalizing db with
  | nil => exact h
  | cons ev rest ih =>
    have hstep : EventInv { db with
        event_counter := db.event_counter + 1,
        event_log := db.event_log ++ [{ id := db.event_counter + 1, event := ev }] } := by
      obtain ⟨hpair, hle⟩ := h
      constructor
      · rw [List.pairwise_append]
        refine ⟨hpair, by simp, ?_⟩
        intro a ha b hb
        simp only [List.mem_singleton] at hb
        subst hb
        have := hle a ha
        show a.id < db.event_counter + 1
        omega
      · intro e he
        rcases List.mem_append.mp he with he | he
        · have := hle e he
          simp only []
          omega
        · simp only [List.mem_singleton] at he
          subst he
          simp
    exact ih hstep

theorem foldl_max_id_init_le (l : List Event) (c : Int) :
    c ≤ l.foldl (fun a e => max a e.id) c := by
  induction l generalizing c with
  | nil => exact le_refl c
  | cons x xs ih => exact le_trans (le_max_left c x.id) (ih (max c x.id))

theorem foldl_max_id_mem_le {l : List Event} {e : Event} (he : e ∈ l) (c : Int) :
    e.id ≤ l.foldl (fun a e => max a e.id) c := by
  induction l generalizing c with
  | nil => simp at he
  | cons x xs ih =>
    rcases List.mem_cons.mp he with rfl | he'
    · exact le_trans (le_max_right c e.id) (foldl_max_id_init_le xs (max c e.id))
    · exact ih he' (max c x.id)

theorem foldl_max_id_cases (l : List Event) (c : Int) :
    l.foldl (fun a e => max a e.id) c = c ∨
      ∃ e ∈ l, l.foldl (fun a e => max a e.id) c = e.id := by
  induction l generalizing c with
  | nil => exact Or.inl rfl
  | cons x xs ih =>
    rcases ih (max c x.id) with h | ⟨e, he, h⟩
    · rcases max_choice c x.id with hm | hm
      · exact Or.inl (by rw [List.foldl_cons, h, hm])
      · exact Or.inr ⟨x, List.mem_cons_self x xs, by rw [List.foldl_cons, h, hm]⟩
    · exact Or.inr ⟨e, List.mem_cons_of_mem x he, by rw [List.foldl_cons, h]⟩

theorem readAfter_le (c : Int) (L : List Event) : c ≤ (readAfter c L).1 :=
  foldl_max_id_init_le _ c

theorem readAfter_bounds {c : Int} {L : List Event} {e : Event}
    (he : e ∈ (readAfter c L).2) : c < e.id ∧ e.id ≤ (readAfter c L).1 := by
  have hmem : e ∈ L.filter (fun e => decide (c < e.id)) := he
  have hgt : c < e.id := by
    have := List.of_mem_filter hmem
    simpa using this
  exact ⟨hgt, foldl_max_id_mem_le hmem c⟩

theorem eventInv_fetch {db : Database} (h : EventInv db) : EventInv (db.fetch_events).1 := by
  obtain ⟨hpair, hle⟩ := h
  refine ⟨hpair, ?_⟩
  intro e he
  exact le_trans (hle e he) (readAfter_le db.event_counter db.event_log)

theorem reach_eventInv {P : JudgementState → Prop} {G : Database → ExternalMessage → Prop}
    {db : Database} (h : Reach P G db) : EventInv db := by
  induction h with
  | init c => exact ⟨by simp, by simp⟩
  | submit hdb hr ih =>
    obtain ⟨hlog, hcounter⟩ := add_judgement_request_log _ _
    unfold EventInv
    rw [hlog, hcounter]
    exact ih
  | message hdb hm ih =>
    unfold applyMessage Database.process_message
    cases hv : Database.verify_message _ _ with
    | error e => exact ih
    | ok r => exact appendEvents_eventInv ih
  | provided hdb ih => exact appendEvents_eventInv ih
  | fetch hdb ih => exact eventInv_fetch ih

/-! ### Claim C6: event log read ordering -/

/-- C6: on every store reachable by the write operations (whose ids come
from the strictly increasing in-process counter), reading after any cursor
returns exactly the logged events with `id > cursor`, as an order-preserving
sublist of the log, in strictly ascending id order — so an event appended
earlier is never returned after one appended later. -/
theorem claim_C6 (db : Database) (h : Reach AnyRequest AnyMessage db) (cursor : Int) :
    (∀ e, e ∈ (readAfter cursor db.event_log).2 ↔ (e ∈ db.event_log ∧ cursor < e.id)) ∧
    (readAfter cursor db.event_log).2.Sublist db.event_log ∧
    ((readAfter cursor db.event_log).2).Pairwise (fun a b => a.id < b.id) ∧
    db.event_log.Pairwise (fun a b => a.id < b.id) := by
  have hinv := reach_eventInv h
  refine ⟨?_, ?_, ?_, hinv.1⟩
  · intro e
    show e ∈ db.event_log.filter (fun e => decide (cursor < e.id)) ↔ _
    rw [List.mem_filter]
    simp
  · exact List.filter_sublist _
  · exact List.Pairwise.sublist (List.filter_sublist _) hinv.1

/-- C6 witness: a store with two logged events, read from cursor 0. -/
theorem claim_C6_witness :
    Reach AnyRequest AnyMessage
        ((exDb0.log_judgement_provided exCtxA).log_judgement_provided exCtxB) ∧
      ((∀ e, e ∈ (readAfter 0
          ((exDb0.log_judgement_provided exCtxA).log_judgement_provided exCtxB).event_log).2 ↔
            (e ∈ ((exDb0.log_judgement_provided exCtxA).log_judgement_provided
              exCtxB).event_log ∧ 0 < e.id)) ∧
        (readAfter 0 ((exDb0.log_judgement_provided exCtxA).log_judgement_provided
            exCtxB).event_log).2.Sublist
          ((exDb0.log_judgement_provided exCtxA).log_judgement_provided exCtxB).event_log ∧
        ((readAfter 0 ((exDb0.log_judgement_provided exCtxA).log_judgement_provided
            exCtxB).event_log).2).Pairwise (fun a b => a.id < b.id) ∧
        ((exDb0.log_judgement_provided exCtxA).log_judgement_provided
            exCtxB).event_log.Pairwise (fun a b => a.id < b.id)) :=
  have hreach : Reach AnyRequest AnyMessage
      ((exDb0.log_judgement_provided exCtxA).log_judgement_provided exCtxB) :=
    Reach.provided (Reach.provided (Reach.init 0))
  ⟨hreach, claim_C6 _ hreach 0⟩

/-! ### Claim C10: reader cursor monotone and duplicate-free -/

theorem fetchSeq_mem_gt {logs : List (List Event)} {c : Int} {b : List Event}
    (hb : b ∈ fetchSeq c logs) : ∀ e ∈ b, c < e.id := by
  induction logs generalizing c with
  | nil => simp [fetchSeq] at hb
  | cons L rest ih =>
    rcases List.mem_cons.mp hb with rfl | hb'
    · exact fun e he => (readAfter_bounds he).1
    · intro e he
      have := ih hb' e he
      have hle := readAfter_le c L
      omega

theorem fetchSeq_pairwise_disjoint (c : Int) (logs : List (List Event)) :
    (fetchSeq c logs).Pairwise
      (fun b1 b2 => ∀ e1 ∈ b1, ∀ e2 ∈ b2, e1.id ≠ e2.id) := by
  induction logs generalizing c with
  | nil => exact List.Pairwise.nil
  | cons L rest ih =>
    refine List.Pairwise.cons ?_ (ih (readAfter c L).1)
    intro b hb e1 he1 e2 he2
    have h1 := (readAfter_bounds he1).2
    have h2 := fetchSeq_mem_gt hb e2 he2
    omega

/-- C10: `fetch_events` is exactly a `readAfter` step on the in-memory
cursor; each call returns only events with ids strictly above the old cursor
and at most the new cursor; the cursor never decreases and, when something is
returned, lands on the maximum returned id; hence over any run of
`fetch_events` calls on one instance (the log free to change in between) the
returned batches carry pairwise disjoint event ids — no event is delivered
twice. -/
theorem claim_C10 :
    (∀ db : Database, db.fetch_events =
      ({ db with event_counter := (readAfter db.event_counter db.event_log).1 },
        (readAfter db.event_counter db.event_log).2.map Event.event)) ∧
    (∀ (c : Int) (L : List Event), c ≤ (readAfter c L).1) ∧
    (∀ (c : Int) (L : List Event), ∀ e ∈ (readAfter c L).2,
      c < e.id ∧ e.id ≤ (readAfter c L).1) ∧
    (∀ (c : Int) (L : List Event), (readAfter c L).2 = [] → (readAfter c L).1 = c) ∧
    (∀ (c : Int) (L : List Event), (readAfter c L).2 ≠ [] →
      (readAfter c L).1 ∈ (readAfter c L).2.map (fun e => e.id)) ∧
    (∀ (c : Int) (logs : List (List Event)),
      (fetchSeq c logs).Pairwise
        (fun b1 b2 => ∀ e1 ∈ b1, ∀ e2 ∈ b2, e1.id ≠ e2.id)) := by
  refine ⟨fun db => rfl, readAfter_le, fun c L e he => readAfter_bounds he, ?_, ?_,
    fetchSeq_pairwise_disjoint⟩
  · intro c L hnil
    show (L.filter (fun e => decide (c < e.id))).foldl (fun a e => max a e.id) c = c
    have : L.filter (fun e => decide (c < e.id)) = [] := hnil
    rw [this]
    rfl
  · intro c L hne
    rcases foldl_max_id_cases (L.filter (fun e => decide (c < e.id))) c with h | ⟨e, he, h⟩
    · exfalso
      rcases List.exists_mem_of_ne_nil _ hne with ⟨e, he⟩
      have hb := readAfter_bounds he
      rw [show (readAfter c L).1 =
        (L.filter (fun e => decide (c < e.id))).foldl (fun a e => max a e.id) c from rfl, h]
        at hb
      omega
    · exact List.mem_map.mpr ⟨e, he, h.symm⟩

/-- C10 witness: two concrete fetches over a changing log return disjoint
batches, and the bounds hold at a concrete returned event. -/
theorem claim_C10_witness :
    ((⟨1, NotificationMessage.JudgementProvided exCtxA⟩ : Event) ∈
        (readAfter 0 [⟨1, NotificationMessage.JudgementProvided exCtxA⟩]).2 ∧
      (0 < (1 : Int) ∧ (1 : Int) ≤
        (readAfter 0 [⟨1, NotificationMessage.JudgementProvided exCtxA⟩]).1)) ∧
    (fetchSeq 0 [[⟨1, NotificationMessage.JudgementProvided exCtxA⟩],
        [⟨1, NotificationMessage.JudgementProvided exCtxA⟩,
         ⟨2, NotificationMessage.JudgementProvided exCtxB⟩]]).Pairwise
      (fun b1 b2 => ∀ e1 ∈ b1, ∀ e2 ∈ b2, e1.id ≠ e2.id) :=
  ⟨⟨by decide,
    claim_C10.2.2.1 0 [⟨1, NotificationMessage.JudgementProvided exCtxA⟩]
      ⟨1, NotificationMessage.JudgementProvided exCtxA⟩ (by decide)⟩,
    claim_C10.2.2.2.2.2 0 _⟩

/-! ### Basic facts about the verification step -/

theorem verify_message_success {c : ExpectedChallenge} {m : ExternalMessage}
    (h : (c.verify_message m).2 = true) :
    (c.verify_message m).1 = { c with is_verified := true } := by
  unfold ExpectedChallenge.verify_message at h ⊢
  by_cases hc : m.values.any (fun v => decide (v = c.value)) = true
  · rw [if_pos hc]
  · rw [if_neg hc] at h
    exact absurd h (by simp)

theorem verify_message_fail {c : ExpectedChallenge} {m : ExternalMessage}
    (h : (c.verify_message m).2 = false) : (c.verify_message m).1 = c := by
  unfold ExpectedChallenge.verify_message at h ⊢
  by_cases hc : m.values.any (fun v => decide (v = c.value)) = true
  · rw [if_pos hc] at h
    exact absurd h (by simp)
  · rw [if_neg hc]

theorem verify_message_keeps_verified {c : ExpectedChallenge} {m : ExternalMessage}
    (h : c.is_verified = true) : ((c.verify_message m).1).is_verified = true := by
  unfold ExpectedChallenge.verify_message
  by_cases hc : m.values.any (fun v => decide (v = c.value)) = true
  · rw [if_pos hc]
  · rw [if_neg hc]
    exact h

theorem all_expected_of_cfv {s : JudgementState} (h : s.computeFullyVerified = true) :
    ∀ g ∈ s.fields, g.expected_challenge.is_verified = true := by
  unfold JudgementState.computeFullyVerified at h
  rw [List.all_eq_true] at h
  intro g hg
  have := h g hg
  exact (Bool.and_eq_true _ _ |>.mp this).1

theorem cfv_false_of_unverified {s : JudgementState} {f : IdentityField} (hf : f ∈ s.fields)
    (h : f.expected_challenge.is_verified = false) : s.computeFullyVerified = false := by
  unfold JudgementState.computeFullyVerified
  rw [List.all_eq_false]
  exact ⟨f, hf, by simp [h]⟩

theorem cfv_false_of_second {s : JudgementState} {f : IdentityField} {c : ExpectedChallenge}
    (hf : f ∈ s.fields) (hsec : f.second_expected_challenge = some c)
    (hcv : c.is_verified = false) : s.computeFullyVerified = false := by
  unfold JudgementState.computeFullyVerified
  rw [List.all_eq_false]
  refine ⟨f, hf, ?_⟩
  rw [hsec]
  simp [hcv]

theorem find?_isSome_of_coarse {s : JudgementState} {m : ExternalMessage}
    (h : coarseMatches s m = true) :
    (s.fields.find? (fun f => valueMatches f.value m)).isSome := by
  rw [List.find?_isSome]
  unfold coarseMatches at h
  rw [List.any_eq_true] at h
  rcases h with ⟨f, hf, hv⟩
  exact ⟨f, hf, by simpa [valueMatches] using hv⟩

theorem value_of_find?_matches {fields : List IdentityField} {m : ExternalMessage}
    {f : IdentityField} (h : fields.find? (fun g => valueMatches g.value m) = some f) :
    f.value = m.origin := by
  have := List.find?_some h
  simpa [valueMatches] using this

theorem appendEvents_identities (db : Database) (evs : List NotificationMessage) :
    (appendEvents db evs).identities = db.identities := by
  induction evs generalizing db with
  | nil => rfl
  | cons ev rest ih => exact ih _

theorem log_judgement_provided_identities (db : Database) (c : IdentityContext) :
    (db.log_judgement_provided c).identities = db.identities :=
  appendEvents_identities _ _

/-! ### Context-map preservation -/

theorem setVerifiedUpdate_map_ctx (o c : String) (ids : List JudgementState) :
    (setVerifiedUpdate o c ids).map (fun t => t.context) = ids.map (fun t => t.context) :=
  map_updateFirstWith _ ids (fun _ => rfl)

theorem incFailedUpdate_map_ctx (o : String) (ids : List JudgementState) :
    (incFailedUpdate o ids).map (fun t => t.context) = ids.map (fun t => t.context) :=
  map_updateFirstWith _ ids (fun _ => rfl)

theorem setFullyVerifiedUpdate_map_ctx (ctx : IdentityContext) (ids : List JudgementState) :
    (setFullyVerifiedUpdate ctx ids).map (fun t => t.context) =
      ids.map (fun t => t.context) :=
  map_updateFirstWith _ ids (fun _ => rfl)

theorem finishRecord_map_ctx (snap : JudgementState) (ids : List JudgementState)
    (evs : List NotificationMessage) :
    (finishRecord snap ids evs).1.map (fun t => t.context) = ids.map (fun t => t.context) := by
  unfold finishRecord
  by_cases hc : snap.computeFullyVerified = true
  · rw [if_pos hc]
    exact setFullyVerifiedUpdate_map_ctx _ _
  · rw [if_neg hc]

/-- Case analysis of one loop iteration: an `Ok` outcome is one of the four
source branches (success, failure, already-verified with a reserved second
challenge, already-verified `continue`). -/
theorem processRecord_ok_cases {m : ExternalMessage} {ids : List JudgementState}
    {evs : List NotificationMessage} {s : JudgementState}
    {ids' : List JudgementState} {evs' : List NotificationMessage}
    (h : processRecord m ids evs s = Except.ok (ids', evs')) :
    ∃ f, s.fields.find? (fun g => valueMatches g.value m) = some f ∧
    ((f.expected_challenge.is_verified = false ∧
        (f.expected_challenge.verify_message m).2 = true ∧
        (ids', evs') = finishRecord (mutSnapshot m s)
          (setVerifiedUpdate m.origin f.expected_challenge.value ids)
          (evs ++ [NotificationMessage.FieldVerified s.context f.value])) ∨
     (f.expected_challenge.is_verified = false ∧
        (f.expected_challenge.verify_message m).2 = false ∧
        (ids', evs') = finishRecord (mutSnapshot m s) (incFailedUpdate m.origin ids)
          (evs ++ [NotificationMessage.FieldVerificationFailed s.context f.value])) ∨
     (f.expected_challenge.is_verified = true ∧ f.second_expected_challenge.isSome = true ∧
        (ids', evs') = finishRecord s ids evs) ∨
     (f.expected_challenge.is_verified = true ∧ f.second_expected_challenge.isSome = false ∧
        ids' = ids ∧ evs' = evs)) := by
  unfold processRecord at h
  split at h
  · exact absurd h (by simp)
  · rename_i f hfind
    refine ⟨f, hfind, ?_⟩
    split at h
    · rename_i hver
      split at h
      · rename_i hout
        exact Or.inl ⟨hver, hout, by injection h with h'; exact h'.symm⟩
      · rename_i hout
        simp only [Bool.not_eq_true] at hout
        exact Or.inr (Or.inl ⟨hver, hout, by injection h with h'; exact h'.symm⟩)
    · rename_i hver
      simp only [Bool.not_eq_false] at hver
      split at h
      · rename_i hsec
        exact Or.inr (Or.inr (Or.inl ⟨hver, hsec, by injection h with h'; exact h'.symm⟩))
      · rename_i hsec
        simp only [Bool.not_eq_true] at hsec
        injection h with h'
        exact Or.inr (Or.inr (Or.inr ⟨hver, hsec,
          congrArg Prod.fst h'.symm, congrArg Prod.snd h'.symm⟩))

theorem processRecord_map_ctx {m : ExternalMessage} {ids : List JudgementState}
    {evs : List NotificationMessage} {s : JudgementState}
    {ids' : List JudgementState} {evs' : List NotificationMessage}
    (h : processRecord m ids evs s = Except.ok (ids', evs')) :
    ids'.map (fun t => t.context) = ids.map (fun t => t.context) := by
  rcases processRecord_ok_cases h with ⟨f, hfind, hcase⟩
  rcases hcase with ⟨_, _, hpair⟩ | ⟨_, _, hpair⟩ | ⟨_, _, hpair⟩ | ⟨_, _, hids, _⟩
  · have : ids' = (finishRecord (mutSnapshot m s)
        (setVerifiedUpdate m.origin f.expected_challenge.value ids)
        (evs ++ [NotificationMessage.FieldVerified s.context f.value])).1 :=
      congrArg Prod.fst hpair
    rw [this, finishRecord_map_ctx, setVerifiedUpdate_map_ctx]
  · have : ids' = (finishRecord (mutSnapshot m s) (incFailedUpdate m.origin ids)
        (evs ++ [NotificationMessage.FieldVerificationFailed s.context f.value])).1 :=
      congrArg Prod.fst hpair
    rw [this, finishRecord_map_ctx, incFailedUpdate_map_ctx]
  · have : ids' = (finishRecord s ids evs).1 := congrArg Prod.fst hpair
    rw [this, finishRecord_map_ctx]
  · rw [hids]

theorem verifyLoop_map_ctx {m : ExternalMessage} {snap : List JudgementState}
    {acc : List JudgementState × List NotificationMessage}
    {ids' : List JudgementState} {evs' : List NotificationMessage}
    (h : verifyLoop m acc snap = Except.ok (ids', evs')) :
    ids'.map (fun t => t.context) = acc.1.map (fun t => t.context) := by
  induction snap generalizing acc with
  | nil =>
    unfold verifyLoop at h
    injection h with h'
    rw [h']
  | cons s rest ih =>
    unfold verifyLoop at h
    cases hp : processRecord m acc.1 acc.2 s with
    | error e => rw [hp] at h; exact absurd h (by simp)
    | ok acc' =>
      rw [hp] at h
      calc ids'.map (fun t => t.context) = acc'.1.map (fun t => t.context) := ih h
        _ = acc.1.map (fun t => t.context) := processRecord_map_ctx hp

/-! ### Reachability invariants: unique contexts, unverified second challenges -/

theorem verify_message_map_ctx {db : Database} {m : ExternalMessage}
    {ids' : List JudgementState} {evs' : List NotificationMessage}
    (h : db.verify_message m = Except.ok (ids', evs')) :
    ids'.map (fun t => t.context) = db.identities.map (fun t => t.context) :=
  verifyLoop_map_ctx h

theorem reach_ctxNodup {P : JudgementState → Prop} {G : Database → ExternalMessage → Prop}
    {db : Database} (h : Reach P G db) : CtxNodup db := by
  induction h with
  | init c => exact List.nodup_nil
  | @submit db r hdb hr ih =>
    unfold CtxNodup at ih ⊢
    cases hfind : db.identities.find? (fun s => decide (s.context = r.context)) with
    | some cur =>
      have hmap : (db.add_judgement_request r).identities.map (fun s => s.context) =
          db.identities.map (fun s => s.context) := by
        unfold Database.add_judgement_request
        rw [hfind]
        exact map_updateFirstWith _ _ (fun _ => rfl)
      rw [hmap]
      exact ih
    | none =>
      have hid : (db.add_judgement_request r).identities = db.identities ++ [r] := by
        unfold Database.add_judgement_request
        rw [hfind]
      rw [hid, List.map_append, List.nodup_append]
      refine ⟨ih, List.nodup_singleton _, ?_⟩
      intro ctx hctx
      rcases List.mem_map.mp hctx with ⟨s, hs, hsc⟩
      have := List.find?_eq_none.mp hfind s hs
      simp only [decide_eq_true_eq] at this
      simp only [List.map_cons, List.map_nil, List.mem_singleton]
      intro hcr
      exact this (by rw [hsc, hcr])
  | @message db m hdb hm ih =>
    unfold applyMessage Database.process_message
    cases hv : db.verify_message m with
    | error e => exact ih
    | ok r =>
      unfold CtxNodup at ih ⊢
      rw [appendEvents_identities]
      show ((r.1).map (fun s => s.context)).Nodup
      rw [verify_message_map_ctx hv]
      exact ih
  | @provided db c hdb ih =>
    unfold CtxNodup at ih ⊢
    rw [log_judgement_provided_identities]
    exact ih
  | fetch hdb ih => exact ih

theorem secondsUnverified_of_all {s : JudgementState}
    (h : ∀ g ∈ s.fields,
      (match g.second_expected_challenge with
       | some c => !c.is_verified
       | none => true) = true) : secondsUnverified s = true := by
  unfold secondsUnverified
  rw [List.all_eq_true]
  exact h

theorem all_of_secondsUnverified {s : JudgementState} (h : secondsUnverified s = true) :
    ∀ g ∈ s.fields,
      (match g.second_expected_challenge with
       | some c => !c.is_verified
       | none => true) = true := by
  unfold secondsUnverified at h
  rw [List.all_eq_true] at h
  exact h

theorem secondsUnverified_fields_eq {s t : JudgementState} (hf : t.fields = s.fields)
    (h : secondsUnverified s = true) : secondsUnverified t = true := by
  unfold secondsUnverified at h ⊢
  rw [hf]
  exact h

theorem processRecord_allSeconds {m : ExternalMessage} {ids : List JudgementState}
    {evs : List NotificationMessage} {s : JudgementState}
    {ids' : List JudgementState} {evs' : List NotificationMessage}
    (h : processRecord m ids evs s = Except.ok (ids', evs'))
    (hall : ∀ y ∈ ids, secondsUnverified y = true) :
    ∀ y ∈ ids', secondsUnverified y = true := by
  have hsetv : ∀ (o c : String) (l : List JudgementState),
      (∀ y ∈ l, secondsUnverified y = true) → ∀ y ∈ setVerifiedUpdate o c l,
        secondsUnverified y = true := by
    intro o c l hl y hy
    rcases mem_updateFirstWith hy with hy | ⟨x, hx, _, rfl⟩
    · exact hl y hy
    · apply secondsUnverified_of_all
      intro g hg
      rcases mem_updateFirstWith hg with hg | ⟨z, hz, _, rfl⟩
      · exact all_of_secondsUnverified (hl x hx) g hg
      · exact all_of_secondsUnverified (hl x hx) z hz
  have hinc : ∀ (o : String) (l : List JudgementState),
      (∀ y ∈ l, secondsUnverified y = true) → ∀ y ∈ incFailedUpdate o l,
        secondsUnverified y = true := by
    intro o l hl y hy
    rcases mem_updateFirstWith hy with hy | ⟨x, hx, _, rfl⟩
    · exact hl y hy
    · apply secondsUnverified_of_all
      intro g hg
      rcases mem_updateFirstWith hg with hg | ⟨z, hz, _, rfl⟩
      · exact all_of_secondsUnverified (hl x hx) g hg
      · exact all_of_secondsUnverified (hl x hx) z hz
  have hfull : ∀ (ctx : IdentityContext) (l : List JudgementState),
      (∀ y ∈ l, secondsUnverified y = true) → ∀ y ∈ setFullyVerifiedUpdate ctx l,
        secondsUnverified y = true := by
    intro ctx l hl y hy
    rcases mem_updateFirstWith hy with hy | ⟨x, hx, _, rfl⟩
    · exact hl y hy
    · exact secondsUnverified_fields_eq rfl (hl x hx)
  have hfin : ∀ (snap : JudgementState) (l : List JudgementState)
      (e : List NotificationMessage), (∀ y ∈ l, secondsUnverified y = true) →
        ∀ y ∈ (finishRecord snap l e).1, secondsUnverified y = true := by
    intro snap l e hl
    unfold finishRecord
    by_cases hc : snap.computeFullyVerified = true
    · rw [if_pos hc]
      exact hfull _ _ hl
    · rw [if_neg hc]
      exact hl
  rcases processRecord_ok_cases h with ⟨f, hfind, hcase⟩
  rcases hcase with ⟨_, _, hpair⟩ | ⟨_, _, hpair⟩ | ⟨_, _, hpair⟩ | ⟨_, _, hids, _⟩
  · rw [show ids' = (finishRecord (mutSnapshot m s)
      (setVerifiedUpdate m.origin f.expected_challenge.value ids)
      (evs ++ [NotificationMessage.FieldVerified s.context f.value])).1 from
        congrArg Prod.fst hpair]
    exact hfin _ _ _ (hsetv _ _ _ hall)
  · rw [show ids' = (finishRecord (mutSnapshot m s) (incFailedUpdate m.origin ids)
      (evs ++ [NotificationMessage.FieldVerificationFailed s.context f.value])).1 from
        congrArg Prod.fst hpair]
    exact hfin _ _ _ (hinc _ _ hall)
  · rw [show ids' = (finishRecord s ids evs).1 from congrArg Prod.fst hpair]
    exact hfin _ _ _ hall
  · rw [hids]
    exact hall

theorem verifyLoop_allSeconds {m : ExternalMessage} {snap : List JudgementState}
    {acc : List JudgementState × List NotificationMessage}
    {ids' : List JudgementState} {evs' : List NotificationMessage}
    (h : verifyLoop m acc snap = Except.ok (ids', evs'))
    (hall : ∀ y ∈ acc.1, secondsUnverified y = true) :
    ∀ y ∈ ids', secondsUnverified y = true := by
  induction snap generalizing acc with
  | nil =>
    unfold verifyLoop at h
    injection h with h'
    have hfst : acc.1 = ids' := by rw [h']
    rw [← hfst]
    exact hall
  | cons s rest ih =>
    unfold verifyLoop at h
    cases hp : processRecord m acc.1 acc.2 s with
    | error e => rw [hp] at h; exact absurd h (by simp)
    | ok acc' =>
      rw [hp] at h
      exact ih h (processRecord_allSeconds hp hall)

theorem reach_allSeconds {G : Database → ExternalMessage → Prop} {db : Database}
    (h : Reach (fun r => secondsUnverified r = true) G db) : AllSeconds db := by
  induction h with
  | init c => intro s hs; simp at hs
  | @submit db r hdb hr ih =>
    unfold AllSeconds at ih ⊢
    unfold Database.add_judgement_request
    cases hfind : db.identities.find? (fun s => decide (s.context = r.context)) with
    | some cur =>
      intro y hy
      rcases mem_updateFirstWith hy with hy | ⟨x, hx, _, rfl⟩
      · exact ih y hy
      · apply secondsUnverified_of_all
        intro g hg
        rcases mem_mergeFields hg with hg | hg
        · exact all_of_secondsUnverified (ih cur (List.mem_of_find?_eq_some hfind)) g hg
        · exact all_of_secondsUnverified hr g hg
    | none =>
      intro y hy
      rcases List.mem_append.mp hy with hy | hy
      · exact ih y hy
      · rw [List.mem_singleton.mp hy]
        exact hr
  | @message db m hdb hm ih =>
    unfold applyMessage Database.process_message
    cases hv : db.verify_message m with
    | error e => exact ih
    | ok r =>
      unfold AllSeconds at ih ⊢
      intro y hy
      rw [appendEvents_identities] at hy
      exact verifyLoop_allSeconds hv ih y hy
  | @provided db c hdb ih =>
    unfold AllSeconds at ih ⊢
    intro y hy
    rw [log_judgement_provided_identities] at hy
    exact ih y hy
  | fetch hdb ih => exact ih

/-! ### Claim C3: one-shot verification -/

/-- C3: on any store reachable with requests carrying unverified (reserved)
second challenges — as all fresh requests do — processing a further message
that resolves to an already-verified stored field leaves the collection state
untouched (in particular `failed_attempts` and every `is_verified` flag) and
contributes no notification events. -/
theorem claim_C3 {db : Database}
    (h : Reach (fun r => secondsUnverified r = true) AnyMessage db)
    {s : JudgementState} (hs : s ∈ db.identities) {m : ExternalMessage} {f : IdentityField}
    (hfind : s.fields.find? (fun g => valueMatches g.value m) = some f)
    (hver : f.expected_challenge.is_verified = true)
    (ids : List JudgementState) (evs : List NotificationMessage) :
    processRecord m ids evs s = Except.ok (ids, evs) := by
  have hsec := reach_allSeconds h s hs
  unfold processRecord
  rw [hfind]
  cases hsecf : f.second_expected_challenge with
  | none => simp [hver, hsecf]
  | some c =>
    have hcu : c.is_verified = false := by
      have := all_of_secondsUnverified hsec f (List.mem_of_find?_eq_some hfind)
      rw [hsecf] at this
      simpa using this
    have hcfv : s.computeFullyVerified = false :=
      cfv_false_of_second (List.mem_of_find?_eq_some hfind) hsecf hcu
    simp [hver, hsecf, finishRecord, hcfv]

/-- C3 witness: a store reached by submitting a fresh request and verifying
its field; a replayed message against the verified field is a no-op. -/
theorem claim_C3_witness :
    (exReqFlagTrue ∈ (applyMessage (exDb0.add_judgement_request exReq1) exMsg).identities ∧
      exReqFlagTrue.fields.find? (fun g => valueMatches g.value exMsg) =
        some exFieldVerified ∧
      exFieldVerified.expected_challenge.is_verified = true) ∧
    processRecord exMsg [exReqFlagTrue] [] exReqFlagTrue =
      Except.ok ([exReqFlagTrue], []) :=
  ⟨⟨by decide, by decide, by decide⟩,
    @claim_C3 (applyMessage (exDb0.add_judgement_request exReq1) exMsg)
      (Reach.message (Reach.submit (Reach.init 0) (by decide)) True.intro)
      exReqFlagTrue (by decide) exMsg exFieldVerified (by decide) (by decide)
      [exReqFlagTrue] []⟩

/-! ### Claim C2: full-verification invariant -/

/-- C2, as stated, fails on the code: `exDbAliased` is reachable from the
empty store by two `submit_request` calls (both requests fresh and valid) and
one `process_message` call, yet its record for context B is persisted with
`is_fully_verified = true` while its only field's challenge is unverified.
The success-path positional update landed on the record for context A (the
first document matching origin and challenge value), while the in-memory
fully-verified check used record B's mutated snapshot. -/
theorem claim_C2_counterexample :
    (exDbAliased.fetch_judgement_state exCtxB).map
      (fun s => (s.is_fully_verified,
        s.fields.all (fun f => f.expected_challenge.is_verified))) = some (true, false) := by
  decide

/-! ### Characterizing the loop body when a single record matches -/

theorem finishRecord_pos {snap : JudgementState} {l : List JudgementState}
    {e : List NotificationMessage} (h : snap.computeFullyVerified = true) :
    finishRecord snap l e = (setFullyVerifiedUpdate snap.context l,
      e ++ [NotificationMessage.IdentityFullyVerified snap.context]) := by
  unfold finishRecord
  rw [if_pos h]

theorem finishRecord_neg {snap : JudgementState} {l : List JudgementState}
    {e : List NotificationMessage} (h : snap.computeFullyVerified = false) :
    finishRecord snap l e = (l, e) := by
  unfold finishRecord
  rw [if_neg (by simp [h])]

theorem single_filter_facts {ids : List JudgementState} {s : JudgementState}
    {m : ExternalMessage} (hfilter : ids.filter (fun x => coarseMatches x m) = [s]) :
    s ∈ ids ∧ coarseMatches s m = true ∧
      ∀ x ∈ ids, coarseMatches x m = true → x = s := by
  have hmem : s ∈ ids.filter (fun x => coarseMatches x m) := by
    rw [hfilter]
    exact List.mem_singleton_self s
  refine ⟨(List.mem_filter.mp hmem).1, (List.mem_filter.mp hmem).2, ?_⟩
  intro x hx hcx
  have : x ∈ ids.filter (fun x => coarseMatches x m) := List.mem_filter.mpr ⟨hx, hcx⟩
  rw [hfilter] at this
  exact List.mem_singleton.mp this

theorem eq_of_ctx_of_nodup {ids : List JudgementState}
    (hnodup : (ids.map (fun t => t.context)).Nodup) {x s : JudgementState}
    (hx : x ∈ ids) (hs : s ∈ ids) (hctx : x.context = s.context) : x = s :=
  List.inj_on_of_nodup_map hnodup hx hs hctx

theorem updateFirstWith_replaceFirst {α : Type} [DecidableEq α] {p : α → Bool} {f : α → α}
    {s r : α} {l : List α} (hs : s ∈ l) (honly : ∀ x ∈ l, x ≠ s → p x = false)
    (hpr : p r = true) :
    updateFirstWith p f (replaceFirst s r l) = replaceFirst s (f r) l := by
  induction l with
  | nil => simp at hs
  | cons a t ih =>
    by_cases ha : a = s
    · subst ha
      rw [replaceFirst_cons_self, replaceFirst_cons_self,
        updateFirstWith_cons_pos _ _ hpr]
    · have hs' : s ∈ t := by
        rcases List.mem_cons.mp hs with h | h
        · exact absurd h.symm ha
        · exact h
      rw [replaceFirst_cons_of_ne _ _ ha, replaceFirst_cons_of_ne _ _ ha,
        updateFirstWith_cons_neg _ _ (honly a (List.mem_cons_self a t) ha),
        ih hs' (fun x hx hxs => honly x (List.mem_cons_of_mem a hx) hxs)]

theorem mutSnapshot_of_fail {m : ExternalMessage} {s : JudgementState} {f : IdentityField}
    (hfind : s.fields.find? (fun g => valueMatches g.value m) = some f)
    (hfail : (f.expected_challenge.verify_message m).2 = false) : mutSnapshot m s = s := by
  unfold mutSnapshot
  have hfix : (fun g : IdentityField =>
      { g with expected_challenge := (g.expected_challenge.verify_message m).1 }) f = f := by
    show ({ f with expected_challenge := (f.expected_challenge.verify_message m).1 } :
      IdentityField) = f
    rw [verify_message_fail hfail]
  rw [updateFirstWith_of_fix hfind hfix]

theorem fields_update_align {fields : List IdentityField} {m : ExternalMessage}
    {f : IdentityField}
    (hfind : fields.find? (fun g => valueMatches g.value m) = some f)
    (hsucc : (f.expected_challenge.verify_message m).2 = true) :
    updateFirstWith (fun g => decide (g.value = m.origin) &&
        decide (g.expected_challenge.value = f.expected_challenge.value))
      (fun g => { g with expected_challenge :=
        { g.expected_challenge with is_verified := true } }) fields =
    updateFirstWith (fun g => valueMatches g.value m)
      (fun g => { g with expected_challenge := (g.expected_challenge.verify_message m).1 })
      fields := by
  induction fields with
  | nil => rfl
  | cons a rest ih =>
    by_cases hva : valueMatches a.value m = true
    · rw [List.find?_cons_of_pos (p := fun g => valueMatches g.value m) rest hva] at hfind
      injection hfind with hfa
      subst hfa
      have hvo : decide (a.value = m.origin) = true := hva
      rw [updateFirstWith_cons_pos _ rest (by rw [hvo]; simp),
        updateFirstWith_cons_pos _ rest hva, verify_message_success hsucc]
    · have hva' : valueMatches a.value m = false := by simpa using hva
      have hvo : decide (a.value = m.origin) = false := hva'
      rw [List.find?_cons_of_neg (p := fun g => valueMatches g.value m) rest
        (by simp [hva'])] at hfind
      rw [updateFirstWith_cons_neg _ rest (by rw [hvo]; simp),
        updateFirstWith_cons_neg _ rest hva', ih hfind]

theorem setVerifiedUpdate_single {ids : List JudgementState} {s : JudgementState}
    {m : ExternalMessage} {f : IdentityField}
    (hfind : s.fields.find? (fun g => valueMatches g.value m) = some f)
    (hsucc : (f.expected_challenge.verify_message m).2 = true)
    (hs : s ∈ ids) (honly : ∀ x ∈ ids, coarseMatches x m = true → x = s) :
    setVerifiedUpdate m.origin f.expected_challenge.value ids =
      replaceFirst s (mutSnapshot m s) ids := by
  have hmemf : f ∈ s.fields := List.mem_of_find?_eq_some hfind
  have hfv : f.value = m.origin := value_of_find?_matches hfind
  have hps : (s.fields.any (fun g => decide (g.value = m.origin)) &&
      s.fields.any (fun g => decide (g.expected_challenge.value =
        f.expected_challenge.value))) = true := by
    rw [Bool.and_eq_true]
    constructor
    · rw [List.any_eq_true]
      exact ⟨f, hmemf, by simp [hfv]⟩
    · rw [List.any_eq_true]
      exact ⟨f, hmemf, by simp⟩
  have honly' : ∀ x ∈ ids, x ≠ s →
      (x.fields.any (fun g => decide (g.value = m.origin)) &&
        x.fields.any (fun g => decide (g.expected_challenge.value =
          f.expected_challenge.value))) = false := by
    intro x hx hxs
    by_cases hd : (x.fields.any (fun g => decide (g.value = m.origin)) &&
        x.fields.any (fun g => decide (g.expected_challenge.value =
          f.expected_challenge.value))) = true
    · exfalso
      have hcx : coarseMatches x m = true := (Bool.and_eq_true _ _ |>.mp hd).1
      exact hxs (honly x hx hcx)
    · simpa using hd
  unfold setVerifiedUpdate
  rw [updateFirstWith_eq_replaceFirst hs hps honly']
  have : ({ s with fields := (updateFirstWith
      (fun g => decide (g.value = m.origin) &&
        decide (g.expected_challenge.value = f.expected_challenge.value))
      (fun g => { g with expected_challenge :=
        { g.expected_challenge with is_verified := true } })
      s.fields) } : JudgementState) = mutSnapshot m s := by
    unfold mutSnapshot
    rw [fields_update_align hfind hsucc]
  rw [this]

theorem incFailedUpdate_single {ids : List JudgementState} {s : JudgementState}
    {m : ExternalMessage} (hcoarse : coarseMatches s m = true)
    (hs : s ∈ ids) (honly : ∀ x ∈ ids, coarseMatches x m = true → x = s) :
    incFailedUpdate m.origin ids =
      replaceFirst s { s with fields := (updateFirstWith
        (fun g => decide (g.value = m.origin))
        (fun g => { g with failed_attempts := g.failed_attempts + 1 }) s.fields) } ids := by
  have honly' : ∀ x ∈ ids, x ≠ s →
      x.fields.any (fun g => decide (g.value = m.origin)) = false := by
    intro x hx hxs
    by_cases hd : x.fields.any (fun g => decide (g.value = m.origin)) = true
    · exact absurd (honly x hx hd) hxs
    · simpa using hd
  unfold incFailedUpdate
  rw [updateFirstWith_eq_replaceFirst hs hcoarse honly']

theorem setFullyVerifiedUpdate_single {ids : List JudgementState} {s : JudgementState}
    (hnodup : (ids.map (fun t => t.context)).Nodup) (hs : s ∈ ids) :
    setFullyVerifiedUpdate s.context ids =
      replaceFirst s { s with is_fully_verified := true } ids := by
  have honly : ∀ x ∈ ids, x ≠ s → decide (x.context = s.context) = false := by
    intro x hx hxs
    apply decide_eq_false
    intro hctx
    exact hxs (eq_of_ctx_of_nodup hnodup hx hs hctx)
  unfold setFullyVerifiedUpdate
  exact updateFirstWith_eq_replaceFirst hs (by simp) honly

theorem mutSnapshot_verified_mono {m : ExternalMessage} {s : JudgementState}
    (h : ∀ g ∈ s.fields, g.expected_challenge.is_verified = true) :
    ∀ g ∈ (mutSnapshot m s).fields, g.expected_challenge.is_verified = true := by
  intro g hg
  rcases mem_updateFirstWith hg with hg | ⟨x, hx, _, rfl⟩
  · exact h g hg
  · exact verify_message_keeps_verified (h x hx)

theorem processRecord_single_flagInv {m : ExternalMessage} {ids : List JudgementState}
    {s : JudgementState} {evs : List NotificationMessage}
    {ids' : List JudgementState} {evs' : List NotificationMessage}
    (hnodup : (ids.map (fun t => t.context)).Nodup)
    (hfilter : ids.filter (fun x => coarseMatches x m) = [s])
    (hinv : ∀ y ∈ ids, y.is_fully_verified = true →
      ∀ g ∈ y.fields, g.expected_challenge.is_verified = true)
    (h : processRecord m ids evs s = Except.ok (ids', evs')) :
    ∀ y ∈ ids', y.is_fully_verified = true →
      ∀ g ∈ y.fields, g.expected_challenge.is_verified = true := by
  obtain ⟨hs, hcoarse, honly⟩ := single_filter_facts hfilter
  rcases processRecord_ok_cases h with ⟨f, hfind, hcase⟩
  have hmemf : f ∈ s.fields := List.mem_of_find?_eq_some hfind
  rcases hcase with ⟨hver, hout, hpair⟩ | ⟨hver, hout, hpair⟩ |
    ⟨hver, hsec, hpair⟩ | ⟨hver, hsec, hids, hevs⟩
  · -- success path
    have hsetv := setVerifiedUpdate_single hfind hout hs honly
    by_cases hcfv : (mutSnapshot m s).computeFullyVerified = true
    · rw [finishRecord_pos hcfv] at hpair
      have hids' : ids' = setFullyVerifiedUpdate (mutSnapshot m s).context
          (setVerifiedUpdate m.origin f.expected_challenge.value ids) :=
        congrArg Prod.fst hpair
      rw [hsetv] at hids'
      have hctxeq : (mutSnapshot m s).context = s.context := rfl
      rw [hctxeq] at hids'
      have honlyctx : ∀ x ∈ ids, x ≠ s → decide (x.context = s.context) = false := by
        intro x hx hxs
        apply decide_eq_false
        intro hctx
        exact hxs (eq_of_ctx_of_nodup hnodup hx hs hctx)
      rw [show setFullyVerifiedUpdate s.context (replaceFirst s (mutSnapshot m s) ids) =
          replaceFirst s ({ mutSnapshot m s with is_fully_verified := true }) ids from
        updateFirstWith_replaceFirst hs honlyctx (decide_eq_true hctxeq)] at hids'
      intro y hy hflag g hg
      rw [hids'] at hy
      rcases mem_replaceFirst hy with hy | rfl
      · exact hinv y hy hflag g hg
      · exact all_expected_of_cfv hcfv g hg
    · have hcfv' : (mutSnapshot m s).computeFullyVerified = false := by
        simpa using hcfv
      rw [finishRecord_neg hcfv'] at hpair
      have hids' : ids' = setVerifiedUpdate m.origin f.expected_challenge.value ids :=
        congrArg Prod.fst hpair
      rw [hsetv] at hids'
      intro y hy hflag g hg
      rw [hids'] at hy
      rcases mem_replaceFirst hy with hy | rfl
      · exact hinv y hy hflag g hg
      · have hsflag : s.is_fully_verified = true := hflag
        exact mutSnapshot_verified_mono (hinv s hs hsflag) g hg
  · -- failure path
    have hsnap := mutSnapshot_of_fail hfind hout
    rw [hsnap] at hpair
    have hcfv : s.computeFullyVerified = false := cfv_false_of_unverified hmemf hver
    rw [finishRecord_neg hcfv] at hpair
    have hids' : ids' = incFailedUpdate m.origin ids := congrArg Prod.fst hpair
    rw [incFailedUpdate_single hcoarse hs honly] at hids'
    intro y hy hflag g hg
    rw [hids'] at hy
    rcases mem_replaceFirst hy with hy | rfl
    · exact hinv y hy hflag g hg
    · have hsflag : s.is_fully_verified = true := hflag
      have hsall := hinv s hs hsflag
      rcases mem_updateFirstWith hg with hg | ⟨x, hx, _, rfl⟩
      · exact hsall g hg
      · exact hsall x hx
  · -- already verified, reserved second challenge present
    by_cases hcfv : s.computeFullyVerified = true
    · rw [finishRecord_pos hcfv] at hpair
      have hids' : ids' = setFullyVerifiedUpdate s.context ids := congrArg Prod.fst hpair
      rw [setFullyVerifiedUpdate_single hnodup hs] at hids'
      intro y hy hflag g hg
      rw [hids'] at hy
      rcases mem_replaceFirst hy with hy | rfl
      · exact hinv y hy hflag g hg
      · exact all_expected_of_cfv hcfv g hg
    · have hcfv' : s.computeFullyVerified = false := by simpa using hcfv
      rw [finishRecord_neg hcfv'] at hpair
      have hids' : ids' = ids := congrArg Prod.fst hpair
      rw [hids']
      exact hinv
  · -- already verified, no second challenge: continue
    rw [hids]
    exact hinv

theorem reach_flagInv {db : Database}
    (h : Reach (fun r => flagOk r = true) (fun db m => singleMatch db m = true) db) :
    FlagInv db := by
  induction h with
  | init c => intro y hy; simp at hy
  | @submit db r hdb hr ih =>
    cases hfind : db.identities.find? (fun s => decide (s.context = r.context)) with
    | some cur =>
      have hid : (db.add_judgement_request r).identities =
          updateFirstWith (fun s => decide (s.context = r.context))
            (fun s => { s with
              is_fully_verified :=
                if !(mergeFields cur.fields r.fields).isEmpty then false
                else cur.is_fully_verified,
              fields := mergeFields cur.fields r.fields }) db.identities := by
        unfold Database.add_judgement_request
        rw [hfind]
      intro y hy hflag g hg
      rw [hid] at hy
      rcases mem_updateFirstWith hy with hy | ⟨x, hx, _, rfl⟩
      · exact ih y hy hflag g hg
      · by_cases hempty : (mergeFields cur.fields r.fields).isEmpty = true
        · exfalso
          have hgf : g ∈ mergeFields cur.fields r.fields := hg
          rw [List.isEmpty_iff.mp hempty] at hgf
          simp at hgf
        · exfalso
          have hempty' : (mergeFields cur.fields r.fields).isEmpty = false := by
            simpa using hempty
          have hflag' : (if !(mergeFields cur.fields r.fields).isEmpty then false
              else cur.is_fully_verified) = true := hflag
          rw [hempty'] at hflag'
          simp at hflag'
    | none =>
      have hid : (db.add_judgement_request r).identities = db.identities ++ [r] := by
        unfold Database.add_judgement_request
        rw [hfind]
      intro y hy hflag g hg
      rw [hid] at hy
      rcases List.mem_append.mp hy with hy | hy
      · exact ih y hy hflag g hg
      · rw [List.mem_singleton.mp hy] at hflag hg
        unfold flagOk at hr
        rw [hflag] at hr
        simp only [Bool.not_true, Bool.false_or] at hr
        exact List.all_eq_true.mp hr g hg
  | @message db m hdb hm ih =>
    have hnodup : (db.identities.map (fun t => t.context)).Nodup := reach_ctxNodup hdb
    unfold applyMessage Database.process_message
    cases hv : db.verify_message m with
    | error e => exact ih
    | ok r =>
      intro y hy hflag g hg
      rw [appendEvents_identities] at hy
      have hlen : (db.identities.filter (fun x => coarseMatches x m)).length ≤ 1 := by
        have := hm
        unfold singleMatch at this
        exact of_decide_eq_true this
      unfold Database.verify_message at hv
      cases hfilter : db.identities.filter (fun x => coarseMatches x m) with
      | nil =>
        rw [hfilter] at hv
        unfold verifyLoop at hv
        injection hv with hv'
        have hr1 : r.1 = db.identities := by rw [← hv']
        rw [hr1] at hy
        exact ih y hy hflag g hg
      | cons s tail =>
        have htail : tail = [] := by
          rw [hfilter] at hlen
          simp only [List.length_cons] at hlen
          exact List.eq_nil_of_length_eq_zero (by omega)
        subst htail
        rw [hfilter] at hv
        unfold verifyLoop at hv
        cases hp : processRecord m db.identities [] s with
        | error e => rw [hp] at hv; exact absurd hv (by simp)
        | ok acc' =>
          rw [hp] at hv
          unfold verifyLoop at hv
          injection hv with hv'
          have hr1 : r.1 = acc'.1 := by rw [← hv']
          rw [hr1] at hy
          have hstep := processRecord_single_flagInv hnodup hfilter ih
            (show processRecord m db.identities [] s = Except.ok (acc'.1, acc'.2) from hp)
          exact hstep y hy hflag g hg
  | @provided db c hdb ih =>
    intro y hy
    rw [log_judgement_provided_identities] at hy
    exact ih y hy
  | fetch hdb ih => exact ih

/-! ### Claim C2 (amended) -/

/-- C2 (amended): the full-verification invariant — `is_fully_verified = true`
implies every field's expected challenge is verified — holds for every store
reachable from empty by `submit_request` calls whose requests themselves
satisfy the invariant (`flagOk`) and by messages whose origin matches at most
one stored record (`singleMatch`, the spec's "in practice at most one live
field should match"); `mark_judgement_provided` and event reads never touch
the invariant.  The counterexample shows the single-match hypothesis cannot
be dropped. -/
theorem claim_C2_amended {db : Database}
    (h : Reach (fun r => flagOk r = true) (fun db m => singleMatch db m = true) db) :
    ∀ s ∈ db.identities, s.is_fully_verified = true →
      ∀ f ∈ s.fields, f.expected_challenge.is_verified = true :=
  reach_flagInv h

/-- C2 witness: a concrete reachable store (one request, one verifying
message) satisfies the invariant. -/
theorem claim_C2_witness :
    Reach (fun r => flagOk r = true) (fun db m => singleMatch db m = true)
        (applyMessage (exDb0.add_judgement_request exReq1) exMsg) ∧
      ∀ s ∈ (applyMessage (exDb0.add_judgement_request exReq1) exMsg).identities,
        s.is_fully_verified = true →
          ∀ f ∈ s.fields, f.expected_challenge.is_verified = true :=
  have hreach : Reach (fun r => flagOk r = true) (fun db m => singleMatch db m = true)
      (applyMessage (exDb0.add_judgement_request exReq1) exMsg) :=
    Reach.message (Reach.submit (Reach.init 0) (by decide)) (by decide)
  ⟨hreach, claim_C2_amended hreach⟩

/-! ### Claim C4: the fully-verified transition -/

theorem recordSnapshotAfter_of_unverified {m : ExternalMessage} {s : JudgementState}
    {f : IdentityField} (hfind : s.fields.find? (fun g => valueMatches g.value m) = some f)
    (hver : f.expected_challenge.is_verified = false) :
    recordSnapshotAfter m s = mutSnapshot m s := by
  unfold recordSnapshotAfter
  rw [hfind]
  show (if f.expected_challenge.is_verified = false then mutSnapshot m s else s) =
    mutSnapshot m s
  rw [if_pos hver]

theorem recordSnapshotAfter_of_verified {m : ExternalMessage} {s : JudgementState}
    {f : IdentityField} (hfind : s.fields.find? (fun g => valueMatches g.value m) = some f)
    (hver : f.expected_challenge.is_verified = true) :
    recordSnapshotAfter m s = s := by
  unfold recordSnapshotAfter
  rw [hfind]
  show (if f.expected_challenge.is_verified = false then mutSnapshot m s else s) = s
  rw [if_neg (by simp [hver])]

theorem setFullyVerifiedUpdate_mem_flag {ctx : IdentityContext} {l : List JudgementState}
    (h : ctx ∈ l.map (fun t => t.context)) :
    ∃ t ∈ setFullyVerifiedUpdate ctx l, t.context = ctx ∧ t.is_fully_verified = true := by
  induction l with
  | nil => simp at h
  | cons x xs ih =>
    by_cases hx : decide (x.context = ctx) = true
    · refine ⟨{ x with is_fully_verified := true }, ?_, of_decide_eq_true hx, rfl⟩
      unfold setFullyVerifiedUpdate
      rw [updateFirstWith_cons_pos (p := fun s => decide (s.context = ctx))
        (fun s => { s with is_fully_verified := true }) xs hx]
      exact List.mem_cons_self _ _
    · have hx' : ¬(x.context = ctx) := by
        intro hc
        exact hx (decide_eq_true hc)
      have hxs : ctx ∈ xs.map (fun t => t.context) := by
        rcases List.mem_map.mp h with ⟨t, ht, htc⟩
        rcases List.mem_cons.mp ht with rfl | ht'
        · exact absurd htc hx'
        · exact List.mem_map.mpr ⟨t, ht', htc⟩
      rcases ih hxs with ⟨t, ht, htc, htf⟩
      refine ⟨t, ?_, htc, htf⟩
      unfold setFullyVerifiedUpdate at ht ⊢
      rw [updateFirstWith_cons_neg (p := fun s => decide (s.context = ctx))
        (fun s => { s with is_fully_verified := true }) xs (by simpa using hx)]
      exact List.mem_cons_of_mem x ht

theorem exists_flag_updateFirstWith {p : JudgementState → Bool}
    {f : JudgementState → JudgementState} {l : List JudgementState} {ctx : IdentityContext}
    (hf : ∀ x, (f x).context = x.context ∧
      (x.is_fully_verified = true → (f x).is_fully_verified = true))
    (hex : ∃ t ∈ l, t.context = ctx ∧ t.is_fully_verified = true) :
    ∃ t ∈ updateFirstWith p f l, t.context = ctx ∧ t.is_fully_verified = true := by
  rcases hex with ⟨t, ht, htc, htf⟩
  rcases exists_updateFirstWith (p := p) (f := f) ht with ⟨y, hy, hcase⟩
  rcases hcase with h1 | h1
  · subst h1
    exact ⟨y, hy, htc, htf⟩
  · subst h1
    exact ⟨f t, hy, (hf t).1.trans htc, (hf t).2 htf⟩

theorem finishRecord_flag_stable {snap : JudgementState} {l : List JudgementState}
    {e : List NotificationMessage} {ctx : IdentityContext}
    (hex : ∃ t ∈ l, t.context = ctx ∧ t.is_fully_verified = true) :
    ∃ t ∈ (finishRecord snap l e).1, t.context = ctx ∧ t.is_fully_verified = true := by
  unfold finishRecord
  by_cases hc : snap.computeFullyVerified = true
  · rw [if_pos hc]
    exact exists_flag_updateFirstWith (fun x => ⟨rfl, fun _ => rfl⟩) hex
  · rw [if_neg hc]
    exact hex

theorem processRecord_flag_stable {m : ExternalMessage} {ids : List JudgementState}
    {evs : List NotificationMessage} {s : JudgementState}
    {ids' : List JudgementState} {evs' : List NotificationMessage}
    (h : processRecord m ids evs s = Except.ok (ids', evs')) {ctx : IdentityContext}
    (hex : ∃ t ∈ ids, t.context = ctx ∧ t.is_fully_verified = true) :
    ∃ t ∈ ids', t.context = ctx ∧ t.is_fully_verified = true := by
  rcases processRecord_ok_cases h with ⟨f, hfind, hcase⟩
  rcases hcase with ⟨_, _, hpair⟩ | ⟨_, _, hpair⟩ | ⟨_, _, hpair⟩ | ⟨_, _, hids, _⟩
  · rw [show ids' = (finishRecord (mutSnapshot m s)
      (setVerifiedUpdate m.origin f.expected_challenge.value ids)
      (evs ++ [NotificationMessage.FieldVerified s.context f.value])).1 from
        congrArg Prod.fst hpair]
    exact finishRecord_flag_stable
      (exists_flag_updateFirstWith (fun x => ⟨rfl, fun hx => hx⟩) hex)
  · rw [show ids' = (finishRecord (mutSnapshot m s) (incFailedUpdate m.origin ids)
      (evs ++ [NotificationMessage.FieldVerificationFailed s.context f.value])).1 from
        congrArg Prod.fst hpair]
    exact finishRecord_flag_stable
      (exists_flag_updateFirstWith (fun x => ⟨rfl, fun hx => hx⟩) hex)
  · rw [show ids' = (finishRecord s ids evs).1 from congrArg Prod.fst hpair]
    exact finishRecord_flag_stable hex
  · rw [hids]
    exact hex

theorem verifyLoop_flag_stable {m : ExternalMessage} {snap : List JudgementState}
    {acc : List JudgementState × List NotificationMessage}
    {ids' : List JudgementState} {evs' : List NotificationMessage}
    (h : verifyLoop m acc snap = Except.ok (ids', evs')) {ctx : IdentityContext}
    (hex : ∃ t ∈ acc.1, t.context = ctx ∧ t.is_fully_verified = true) :
    ∃ t ∈ ids', t.context = ctx ∧ t.is_fully_verified = true := by
  induction snap generalizing acc with
  | nil =>
    unfold verifyLoop at h
    injection h with h'
    have hfst : acc.1 = ids' := by rw [h']
    rw [← hfst]
    exact hex
  | cons s rest ih =>
    unfold verifyLoop at h
    cases hp : processRecord m acc.1 acc.2 s with
    | error e => rw [hp] at h; exact absurd h (by simp)
    | ok acc' =>
      rw [hp] at h
      exact ih h (processRecord_flag_stable hp hex)

theorem processRecord_events {m : ExternalMessage} {ids : List JudgementState}
    {evs : List NotificationMessage} {s : JudgementState}
    {ids' : List JudgementState} {evs' : List NotificationMessage}
    (h : processRecord m ids evs s = Except.ok (ids', evs'))
    (hctx : s.context ∈ ids.map (fun t => t.context)) :
    ∃ extra, evs' = evs ++ extra ∧
      (∀ ctx, extra.countP
        (fun e => decide (e = NotificationMessage.IdentityFullyVerified ctx)) ≤ 1) ∧
      (∀ ctx, NotificationMessage.IdentityFullyVerified ctx ∈ extra →
        ctx = s.context ∧ (recordSnapshotAfter m s).computeFullyVerified = true ∧
        ∃ t ∈ ids', t.context = ctx ∧ t.is_fully_verified = true) := by
  rcases processRecord_ok_cases h with ⟨f, hfind, hcase⟩
  rcases hcase with ⟨hver, hout, hpair⟩ | ⟨hver, hout, hpair⟩ |
    ⟨hver, hsec, hpair⟩ | ⟨hver, hsec, hids, hevs⟩
  · have hrsa := recordSnapshotAfter_of_unverified hfind hver
    have hmc : (mutSnapshot m s).context = s.context := rfl
    by_cases hcfv : (mutSnapshot m s).computeFullyVerified = true
    · rw [finishRecord_pos hcfv] at hpair
      have h2 := congrArg Prod.snd hpair
      simp only [hmc] at h2
      rw [List.append_assoc] at h2
      have hids' : ids' = setFullyVerifiedUpdate (mutSnapshot m s).context
          (setVerifiedUpdate m.origin f.expected_challenge.value ids) :=
        congrArg Prod.fst hpair
      rw [hmc] at hids'
      refine ⟨[NotificationMessage.FieldVerified s.context f.value] ++
        [NotificationMessage.IdentityFullyVerified s.context], h2, ?_, ?_⟩
      · intro ctx
        by_cases hc : s.context = ctx <;>
          simp [List.countP_append, List.countP_cons, hc]
      · intro ctx hmem
        have hctxeq : ctx = s.context := by
          rcases List.mem_append.mp hmem with h1 | h1
          · rcases List.mem_singleton.mp h1 with h2'
            exact absurd h2' (by simp)
          · have h2' := List.mem_singleton.mp h1
            injection h2' with h3
        subst hctxeq
        refine ⟨rfl, by rw [hrsa]; exact hcfv, ?_⟩
        rw [hids']
        apply setFullyVerifiedUpdate_mem_flag
        rw [setVerifiedUpdate_map_ctx]
        exact hctx
    · have hcfv' : (mutSnapshot m s).computeFullyVerified = false := by simpa using hcfv
      rw [finishRecord_neg hcfv'] at hpair
      refine ⟨[NotificationMessage.FieldVerified s.context f.value],
        congrArg Prod.snd hpair, ?_, ?_⟩
      · intro ctx
        simp [List.countP_cons]
      · intro ctx hmem
        have h1 := List.mem_singleton.mp hmem
        exact absurd h1 (by simp)
  · have hsnap := mutSnapshot_of_fail hfind hout
    rw [hsnap] at hpair
    have hcfv : s.computeFullyVerified = false :=
      cfv_false_of_unverified (List.mem_of_find?_eq_some hfind) hver
    rw [finishRecord_neg hcfv] at hpair
    refine ⟨[NotificationMessage.FieldVerificationFailed s.context f.value],
      congrArg Prod.snd hpair, ?_, ?_⟩
    · intro ctx
      simp [List.countP_cons]
    · intro ctx hmem
      have h1 := List.mem_singleton.mp hmem
      exact absurd h1 (by simp)
  · have hrsa := recordSnapshotAfter_of_verified hfind hver
    by_cases hcfv : s.computeFullyVerified = true
    · rw [finishRecord_pos hcfv] at hpair
      refine ⟨[NotificationMessage.IdentityFullyVerified s.context],
        congrArg Prod.snd hpair, ?_, ?_⟩
      · intro ctx
        by_cases hc : s.context = ctx <;> simp [List.countP_cons, hc]
      · intro ctx hmem
        have hctxeq : ctx = s.context := by
          have h1 := List.mem_singleton.mp hmem
          injection h1 with h3
        subst hctxeq
        refine ⟨rfl, by rw [hrsa]; exact hcfv, ?_⟩
        rw [show ids' = setFullyVerifiedUpdate s.context ids from congrArg Prod.fst hpair]
        exact setFullyVerifiedUpdate_mem_flag hctx
    · have hcfv' : s.computeFullyVerified = false := by simpa using hcfv
      rw [finishRecord_neg hcfv'] at hpair
      refine ⟨[], by simpa using congrArg Prod.snd hpair, ?_, ?_⟩
      · intro ctx; simp
      · intro ctx hmem; simp at hmem
  · refine ⟨[], by rw [hevs, List.append_nil], ?_, ?_⟩
    · intro ctx; simp
    · intro ctx hmem; simp at hmem

theorem countP_eq_zero_of_not_mem_ifv {extra : List NotificationMessage}
    {ctx : IdentityContext} (h : NotificationMessage.IdentityFullyVerified ctx ∉ extra) :
    extra.countP (fun e => decide (e = NotificationMessage.IdentityFullyVerified ctx)) = 0 := by
  rw [List.countP_eq_zero]
  intro e he
  simp only [decide_eq_true_eq]
  intro heq
  exact h (heq ▸ he)

theorem verifyLoop_ifv {m : ExternalMessage} {snap : List JudgementState}
    {acc : List JudgementState × List NotificationMessage}
    {ids' : List JudgementState} {evs' : List NotificationMessage}
    (h : verifyLoop m acc snap = Except.ok (ids', evs'))
    (hsub : ∀ s ∈ snap, s.context ∈ acc.1.map (fun t => t.context))
    (hnodup : (snap.map (fun t => t.context)).Nodup) :
    ∃ extra, evs' = acc.2 ++ extra ∧
      (∀ ctx, extra.countP
        (fun e => decide (e = NotificationMessage.IdentityFullyVerified ctx)) ≤ 1) ∧
      (∀ ctx, NotificationMessage.IdentityFullyVerified ctx ∈ extra →
        (∃ s ∈ snap, s.context = ctx ∧
          (recordSnapshotAfter m s).computeFullyVerified = true) ∧
        ∃ t ∈ ids', t.context = ctx ∧ t.is_fully_verified = true) := by
  induction snap generalizing acc with
  | nil =>
    unfold verifyLoop at h
    injection h with h'
    refine ⟨[], by rw [List.append_nil, show acc.2 = evs' from congrArg Prod.snd h'], ?_, ?_⟩
    · intro ctx; simp
    · intro ctx hmem; simp at hmem
  | cons s rest ih =>
    unfold verifyLoop at h
    cases hp : processRecord m acc.1 acc.2 s with
    | error e => rw [hp] at h; exact absurd h (by simp)
    | ok acc1 =>
      rw [hp] at h
      have hp' : processRecord m acc.1 acc.2 s = Except.ok (acc1.1, acc1.2) := hp
      rcases processRecord_events hp' (hsub s (List.mem_cons_self s rest)) with
        ⟨extraS, hevs1, hcountS, hmemS⟩
      have hsub' : ∀ x ∈ rest, x.context ∈ acc1.1.map (fun t => t.context) := by
        intro x hx
        rw [processRecord_map_ctx hp']
        exact hsub x (List.mem_cons_of_mem s hx)
      simp only [List.map_cons, List.nodup_cons] at hnodup
      rcases ih h hsub' hnodup.2 with ⟨extraR, hevs2, hcountR, hmemR⟩
      rw [hevs1] at hevs2
      refine ⟨extraS ++ extraR, by rw [hevs2, List.append_assoc], ?_, ?_⟩
      · intro ctx
        rw [List.countP_append]
        by_cases hc : NotificationMessage.IdentityFullyVerified ctx ∈ extraS
        · have hctxeq : ctx = s.context := (hmemS ctx hc).1
          have hzero : extraR.countP
              (fun e => decide (e = NotificationMessage.IdentityFullyVerified ctx)) = 0 := by
            apply countP_eq_zero_of_not_mem_ifv
            intro hmem2
            rcases (hmemR ctx hmem2).1 with ⟨x, hx, hxc, hdum⟩
            apply hnodup.1
            rw [← hctxeq]
            exact List.mem_map.mpr ⟨x, hx, hxc⟩
          rw [hzero]
          have hb := hcountS ctx
          omega
        · have hzero : extraS.countP
              (fun e => decide (e = NotificationMessage.IdentityFullyVerified ctx)) = 0 :=
            countP_eq_zero_of_not_mem_ifv hc
          rw [hzero]
          have hb := hcountR ctx
          omega
      · intro ctx hmem
        rcases List.mem_append.mp hmem with hmem | hmem
        · rcases hmemS ctx hmem with ⟨hctxeq, hcfv, hex⟩
          refine ⟨⟨s, List.mem_cons_self s rest, hctxeq.symm, hcfv⟩, ?_⟩
          exact verifyLoop_flag_stable h hex
        · rcases hmemR ctx hmem with ⟨⟨x, hx, hxc, hxcfv⟩, hex⟩
          exact ⟨⟨x, List.mem_cons_of_mem s hx, hxc, hxcfv⟩, hex⟩

/-- C4, as stated, fails on the code: the loop never consults the persisted
`is_fully_verified` flag.  On the reachable store `exDbAliased`, context B is
already persisted as fully verified, yet processing the same message again
emits `IdentityFullyVerified(B)` once more. -/
theorem claim_C4_counterexample :
    (exDbAliased.fetch_judgement_state exCtxB).map
        (fun s => s.is_fully_verified) = some true ∧
      NotificationMessage.IdentityFullyVerified exCtxB ∈
        ((exDbAliased.verify_message exMsg).toOption.map (fun r => r.2)).getD [] := by
  constructor
  · decide
  · decide

/-- C4 (amended): during one `verify_message` pass on any reachable store,
`IdentityFullyVerified(ctx)` is emitted only if some coarse-matching record
with context `ctx` has an in-memory post-mutation snapshot
(`recordSnapshotAfter`) that is fully verified, and on emission the stored
record for `ctx` is persisted with `is_fully_verified = true`; the event is
emitted at most once per context per pass.  The previously persisted flag is
not consulted (dropped from the original claim — see the counterexample). -/
theorem claim_C4_amended {db : Database} (h : Reach AnyRequest AnyMessage db)
    {m : ExternalMessage} {ids' : List JudgementState} {evs : List NotificationMessage}
    (hv : db.verify_message m = Except.ok (ids', evs)) :
    (∀ ctx, evs.countP
      (fun e => decide (e = NotificationMessage.IdentityFullyVerified ctx)) ≤ 1) ∧
    (∀ ctx, NotificationMessage.IdentityFullyVerified ctx ∈ evs →
      (∃ s ∈ db.identities, coarseMatches s m = true ∧ s.context = ctx ∧
        (recordSnapshotAfter m s).computeFullyVerified = true) ∧
      ∃ t ∈ ids', t.context = ctx ∧ t.is_fully_verified = true) := by
  have hnodup : (db.identities.map (fun t => t.context)).Nodup := reach_ctxNodup h
  unfold Database.verify_message at hv
  have hsub : ∀ s ∈ db.identities.filter (fun x => coarseMatches x m),
      s.context ∈ (db.identities, ([] : List NotificationMessage)).1.map
        (fun t => t.context) := by
    intro s hs
    exact List.mem_map.mpr ⟨s, List.mem_of_mem_filter hs, rfl⟩
  have hsnodup : ((db.identities.filter (fun x => coarseMatches x m)).map
      (fun t => t.context)).Nodup := by
    have hsl : (db.identities.filter (fun x => coarseMatches x m)).Sublist db.identities :=
      List.filter_sublist _
    exact List.Nodup.sublist (hsl.map (fun t : JudgementState => t.context)) hnodup
  rcases verifyLoop_ifv hv hsub hsnodup with ⟨extra, hevs, hcount, hmem⟩
  simp only [List.nil_append] at hevs
  subst hevs
  refine ⟨hcount, ?_⟩
  intro ctx hmem'
  rcases hmem ctx hmem' with ⟨⟨s, hs, hsc, hscfv⟩, hex⟩
  exact ⟨⟨s, (List.mem_filter.mp hs).1, (List.mem_filter.mp hs).2, hsc, hscfv⟩, hex⟩

/-- C4 witness: one request, one verifying message; the pass emits exactly
one `IdentityFullyVerified` for the record's context. -/
theorem claim_C4_witness :
    ((exDb0.add_judgement_request exReq1).verify_message exMsg =
      Except.ok ([exReqFlagTrue],
        [NotificationMessage.FieldVerified exCtxA "acct",
         NotificationMessage.IdentityFullyVerified exCtxA])) ∧
    ((∀ ctx, List.countP
        (fun e => decide (e = NotificationMessage.IdentityFullyVerified ctx))
        [NotificationMessage.FieldVerified exCtxA "acct",
         NotificationMessage.IdentityFullyVerified exCtxA] ≤ 1) ∧
      (∀ ctx, NotificationMessage.IdentityFullyVerified ctx ∈
          [NotificationMessage.FieldVerified exCtxA "acct",
           NotificationMessage.IdentityFullyVerified exCtxA] →
        (∃ s ∈ (exDb0.add_judgement_request exReq1).identities,
          coarseMatches s exMsg = true ∧ s.context = ctx ∧
          (recordSnapshotAfter exMsg s).computeFullyVerified = true) ∧
        ∃ t ∈ [exReqFlagTrue], t.context = ctx ∧ t.is_fully_verified = true)) :=
  have hv : (exDb0.add_judgement_request exReq1).verify_message exMsg =
      Except.ok ([exReqFlagTrue],
        [NotificationMessage.FieldVerified exCtxA "acct",
         NotificationMessage.IdentityFullyVerified exCtxA]) := rfl
  ⟨hv, claim_C4_amended (Reach.submit (Reach.init 0) True.intro) hv⟩
